import Mathlib

/-!
Verification of the core of slidev-addon-p5: the global-to-instance transpiler
(src/setup/config.ts), the iframe messaging channel with resize throttling
(IframeMessageHandler), and the error line mapper (src/setup/cleanup-manager.ts).

JavaScript strings are modeled as lists of characters (`JStr`), JavaScript
numbers occurring as line numbers, timestamps and dimensions as `Int`.
-/

/-- JavaScript strings, modeled as lists of UTF-16-ish characters. -/
abbrev JStr := List Char

/-! ## Transpiler: AST fragment

The transpiler `transpileGlobalToInstance` (src/setup/config.ts:183-331) parses
source text with acorn, runs one `walk.ancestor` traversal with five visitors
(VariableDeclaration, AssignmentExpression, Property, Identifier,
FunctionDeclaration), and serializes the mutated tree with astring.  The parser
and serializer are the opaque collaborators of spec section 6; the embedding
models the tree and the traversal.  `Node` is the fragment of acorn's ESTree
output that the sketches handled by the addon consist of.  `ObjectPattern` is
kept as a leaf (empty destructuring pattern `{}`), enough to reach the
traversal's runtime-exception path.  For a shorthand property acorn produces
distinct key and value nodes (`copyNode`), so `Property` holds two nodes plus
the `shorthand` flag. -/
inductive Node where
  | Identifier (name : JStr)
  | Lit (raw : JStr)
  | Program (body : List Node)
  | ExpressionStatement (expression : Node)
  | BlockStatement (body : List Node)
  | VariableDeclaration (kind : JStr) (declarations : List Node)
  | VariableDeclarator (id : Node) (init : Option Node)
  | AssignmentExpression (operator : JStr) (left : Node) (right : Node)
  | CallExpression (callee : Node) (arguments : List Node)
  | MemberExpression (object : Node) (property : Node) (computed : Bool)
  | ObjectExpression (properties : List Node)
  | Property (key : Node) (value : Node) (shorthand : Bool) (computed : Bool)
  | FunctionDeclaration (id : Option Node) (params : List Node) (body : Node)
      (isAsync : Bool) (generator : Bool)
  | FunctionExpression (id : Option Node) (params : List Node) (body : Node)
      (isAsync : Bool) (generator : Bool)
  | ArrowFunctionExpression (params : List Node) (body : Node)
      (isAsync : Bool) (expression : Bool)
  | ObjectPattern

namespace globals

/-- Modelled from the spec: `globals.functions` of the module `./p5-globals`
imported by src/setup/config.ts but not present under src/.  Spec section 6: "A
global symbol table (list of recognized global function names, constant names,
and lifecycle hook names) supplied as static configuration".  Representative
recognized p5 global function names used by the spec's examples. -/
def functions : List JStr :=
  [("createCanvas".toList), ("background".toList), ("fill".toList),
   ("noStroke".toList), ("circle".toList), ("random".toList), ("color".toList)]

/-- Modelled from the spec: `globals.constants` of `./p5-globals` (not present
under src/); recognized p5 constant names, per the worked example in
config.ts's comment (`width` -> `_p.width`, `height` -> `_p.height`). -/
def constants : List JStr := [("width".toList), ("height".toList)]

end globals

namespace main

/-- Modelled from the spec: `main.functions` of `./p5-main` (not present under
src/); the recognized lifecycle hook names, spec section 4.1: "`setup`,
`draw`, ...". -/
def functions : List JStr :=
  [("setup".toList), ("draw".toList), ("mousePressed".toList)]

end main

/-- `P5_NAMESPACE` (config.ts:160): the p5 instance handle used in transpiled
code. -/
def P5_NAMESPACE : JStr := "_p".toList

/-- The transpiler's `varMap` (a JS `Map` from original to renamed identifier
name), as an insertion-ordered association list. -/
abbrev VarMap := List (JStr × JStr)

/-- JS `varMap.has(k)`. -/
def vmHas (m : VarMap) (k : JStr) : Bool := m.any (fun e => e.1 == k)

/-- JS `varMap.get(k)` with the absent case defaulted to `k` itself: every use
in config.ts is either guarded by `varMap.has` (where the default is
irrelevant) or written `varMap.get(name) || name` (config.ts:301, where the
default is exactly `name`; stored values are nonempty, so JS `||` never
overrides a present value). -/
def vmGet (m : VarMap) (k : JStr) : JStr :=
  match m.find? (fun e => e.1 == k) with
  | some e => e.2
  | none => k

/-- JS `varName.startsWith("_")` (config.ts:229). -/
def startsWithUnderscore : JStr → Bool
  | '_' :: _ => true
  | _ => false

/-- `node.name` read on an AST node: `some` exactly for identifiers, like the
JS field access yielding `undefined` otherwise. -/
def getName : Node → Option JStr
  | .Identifier s => some s
  | _ => none

/-- The runtime `TypeError` raised inside the traversal when
`varName.startsWith` is evaluated with `varName === undefined`
(config.ts:229, reached for a declarator whose id has no `.name`); it is
caught by the transpiler's surrounding try/catch. -/
inductive WalkErr where
  | noName
deriving DecidableEq

/-- What the `Identifier` visitor can read about the walked node's parent
(`ancestors[ancestors.length - 2]`, config.ts:274): whether the node sits in
the key slot of a `Property`, the property slot of a `MemberExpression`, or
elsewhere, together with the parent's `computed` flag.  The class-body and
import/export parents tested at config.ts:279-283 cannot occur in this AST
fragment. -/
inductive ParentPos where
  | propertyKey (computed : Bool)
  | propertyValue
  | memberProperty (computed : Bool)
  | otherPos
deriving DecidableEq

/-- `isKeyPosition` (config.ts:275-284) as a function of the parent position.
The identity tests `parent.key === node` / `parent.property === node` are
resolved by which field of the parent the walk descended through. -/
def isKeyPosition : ParentPos → Bool
  | .propertyKey computed => !computed
  | .memberProperty computed => !computed
  | _ => false

/-- The lifecycle test of the VariableDeclaration visitor (config.ts:197-200):
`globals.functions.includes(id.name) || main.functions.includes(id.name)`. -/
def isLifecycleName (s : JStr) : Bool :=
  globals.functions.contains s || main.functions.contains s

/-- The init test of the VariableDeclaration visitor (config.ts:201-203):
`init.type === "ArrowFunctionExpression" || init.type === "FunctionExpression"`. -/
def isFnInit : Node → Bool
  | .ArrowFunctionExpression .. => true
  | .FunctionExpression .. => true
  | _ => false

/-- One step of the `declarations.forEach` body of the VariableDeclaration
visitor (config.ts:224-233): reads `declaration.id.name`, populates `varMap`
on first sight with the underscore-prefixed rename (names already starting
with `_` map to themselves), and overwrites `declaration.id.name` with the
mapped name.  A declarator whose id has no `.name` (or a non-declarator entry)
makes `varName.startsWith` throw. -/
def renameOneDecl (m : VarMap) (d : Node) : Except WalkErr (Node × VarMap) :=
  match d with
  | .VariableDeclarator id init =>
    match getName id with
    | some varName =>
      let m1 := if vmHas m varName then m
        else (varName,
          if startsWithUnderscore varName then varName else '_' :: varName) :: m
      .ok (.VariableDeclarator (.Identifier (vmGet m1 varName)) init, m1)
    | none => .error .noName
  | _ => .error .noName

/-- The whole `declarations.forEach` loop (config.ts:224-234). -/
def renameDecls (m : VarMap) : List Node → Except WalkErr (List Node × VarMap)
  | [] => .ok ([], m)
  | d :: ds =>
    match renameOneDecl m d with
    | .error e => .error e
    | .ok (d1, m1) =>
      match renameDecls m1 ds with
      | .error e => .error e
      | .ok (ds1, m2) => .ok (d1 :: ds1, m2)

/-- The lifecycle pattern match of the VariableDeclaration visitor
(config.ts:193-204): a single declarator with identifier id whose name is a
recognized lifecycle/global function name and whose init is an arrow or
function expression. -/
def lifecycleDecl : List Node → Option (JStr × Node)
  | [.VariableDeclarator (.Identifier name) (some init)] =>
    if isLifecycleName name && isFnInit init then some (name, init) else none
  | _ => none

/-- The Identifier visitor (config.ts:260-294) applied to one walked
identifier occurrence: in non-key position, a called recognized global
function name or a recognized constant name is qualified with the instance
namespace (acorn-walk sees the dotted name as one identifier, which astring
serializes as the member access); otherwise a mapped user variable outside
call-callee-name position is renamed. -/
def identVisitor (m : VarMap) (anc : List (Option JStr)) (pp : ParentPos)
    (name : JStr) : JStr :=
  let isFunctionCall := anc.contains (some name)
  if !(isKeyPosition pp) &&
      ((isFunctionCall && globals.functions.contains name) ||
        globals.constants.contains name) then
    P5_NAMESPACE ++ '.' :: name
  else if !isFunctionCall && !(isKeyPosition pp) && vmHas m name then
    vmGet m name
  else name

/-- One side of the AssignmentExpression visitor (config.ts:235-249): a plain
identifier side that is a mapped variable is renamed. -/
def assignVisitorSide (m : VarMap) (x : Node) : Node :=
  match x with
  | .Identifier n => if vmHas m n then .Identifier (vmGet m n) else .Identifier n
  | _ => x

/-- The Property visitor (config.ts:250-259) applied to the walked key and
value: a shorthand property whose key (an identifier) is mapped has its
shorthand flag dropped and its value (an identifier) renamed to the mapped
name. -/
def propVisitor (m : VarMap) (key value : Node) (sh comp : Bool) : Node :=
  match key, value with
  | .Identifier k, .Identifier _ =>
    if sh && vmHas m k then .Property key (.Identifier (vmGet m k)) false comp
    else .Property key value sh comp
  | _, _ => .Property key value sh comp

/-- The FunctionDeclaration visitor (config.ts:295-323) applied to the walked
parts: a function declaration named as a recognized global/lifecycle function
becomes `_p.<mapped name> = function(params){body}` preserving the async and
generator flags (the replacement identifier is `varMap.get(name) || name`). -/
def fdVisitor (m : VarMap) (id1 : Option Node) (ps1 : List Node) (b1 : Node)
    (isAsync generator : Bool) : Node :=
  match id1 with
  | some (.Identifier name) =>
    if globals.functions.contains name || main.functions.contains name then
      .AssignmentExpression ("=".toList)
        (.MemberExpression (.Identifier P5_NAMESPACE)
          (.Identifier (vmGet m name)) false)
        (.FunctionExpression none ps1 b1 isAsync generator)
    else .FunctionDeclaration id1 ps1 b1 isAsync generator
  | _ => .FunctionDeclaration id1 ps1 b1 isAsync generator

mutual

/-- The `walk.ancestor` traversal of config.ts:190-324 on one node, performed
purely: children are walked first (acorn-walk's base walkers), then the node's
own visitor runs on the updated node (acorn-walk invokes user visitors
post-order).  `m` is the current `varMap`; `anc` carries, for each ancestor,
`some s` exactly when that ancestor is a `CallExpression` whose callee is
currently the identifier `s` (the only ancestor fact the Identifier visitor
reads, config.ts:262-271); `pp` is the parent-position fact for
`isKeyPosition`; `isPat` is true when acorn-walk reached this node with the
`Pattern` override, in which case an `Identifier` is dispatched as
`VariablePattern` and its visitor is not invoked (declaration ids, assignment
left-hand sides, function ids and parameters). -/
def walkN (m : VarMap) (anc : List (Option JStr)) (pp : ParentPos)
    (isPat : Bool) : Node → Except WalkErr (Node × VarMap)
  | .Identifier name =>
    if isPat then .ok (.Identifier name, m)
    else .ok (.Identifier (identVisitor m anc pp name), m)
  | .Lit raw => .ok (.Lit raw, m)
  | .ObjectPattern => .ok (.ObjectPattern, m)
  | .Program body =>
    match walkL m (none :: anc) .otherPos false body with
    | .error e => .error e
    | .ok (b, m1) => .ok (.Program b, m1)
  | .BlockStatement body =>
    match walkL m (none :: anc) .otherPos false body with
    | .error e => .error e
    | .ok (b, m1) => .ok (.BlockStatement b, m1)
  | .ExpressionStatement e =>
    match walkN m (none :: anc) .otherPos false e with
    | .error er => .error er
    | .ok (e1, m1) => .ok (.ExpressionStatement e1, m1)
  | .VariableDeclaration kind decls =>
    match walkL m (none :: anc) .otherPos false decls with
    | .error e => .error e
    | .ok (ds, m1) =>
      -- VariableDeclaration visitor (config.ts:191-234)
      match lifecycleDecl ds with
      | some (name, init) =>
        -- config.ts:205-220: replace with `_p.<name> = <fn>`
        .ok (.ExpressionStatement (.AssignmentExpression ("=".toList)
          (.MemberExpression (.Identifier P5_NAMESPACE) (.Identifier name) false)
          init), m1)
      | none =>
        match renameDecls m1 ds with
        | .error e => .error e
        | .ok (ds1, m2) => .ok (.VariableDeclaration kind ds1, m2)
  | .VariableDeclarator id none =>
    -- base.VariableDeclarator: id as Pattern, no init
    match walkN m (none :: anc) .otherPos true id with
    | .error e => .error e
    | .ok (id1, m1) => .ok (.VariableDeclarator id1 none, m1)
  | .VariableDeclarator id (some i) =>
    -- base.VariableDeclarator: id as Pattern, init as Expression
    match walkN m (none :: anc) .otherPos true id with
    | .error e => .error e
    | .ok (id1, m1) =>
      match walkN m1 (none :: anc) .otherPos false i with
      | .error e => .error e
      | .ok (i1, m2) => .ok (.VariableDeclarator id1 (some i1), m2)
  | .AssignmentExpression op l r =>
    -- base.AssignmentExpression: left as Pattern, right as Expression
    match walkN m (none :: anc) .otherPos true l with
    | .error e => .error e
    | .ok (l1, m1) =>
      match walkN m1 (none :: anc) .otherPos false r with
      | .error e => .error e
      | .ok (r1, m2) =>
        .ok (.AssignmentExpression op (assignVisitorSide m2 l1)
          (assignVisitorSide m2 r1), m2)
  | .CallExpression callee args =>
    -- base.CallExpression: callee then arguments; the ancestors entry for this
    -- call reflects the callee as it is at the time each child is visited
    -- (the callee identifier may have been renamed before the arguments are
    -- walked, since the visitors mutate the live tree).
    match walkN m (getName callee :: anc) .otherPos false callee with
    | .error e => .error e
    | .ok (c1, m1) =>
      match walkL m1 (getName c1 :: anc) .otherPos false args with
      | .error e => .error e
      | .ok (a1, m2) => .ok (.CallExpression c1 a1, m2)
  | .MemberExpression obj prop computed =>
    -- base.MemberExpression: object always, property only when computed
    match walkN m (none :: anc) .otherPos false obj with
    | .error e => .error e
    | .ok (o1, m1) =>
      if computed then
        match walkN m1 (none :: anc) (.memberProperty true) false prop with
        | .error e => .error e
        | .ok (p1, m2) => .ok (.MemberExpression o1 p1 computed, m2)
      else
        .ok (.MemberExpression o1 prop computed, m1)
  | .ObjectExpression props =>
    match walkL m (none :: anc) .otherPos false props with
    | .error e => .error e
    | .ok (ps, m1) => .ok (.ObjectExpression ps, m1)
  | .Property key value shorthand computed =>
    -- base.Property: key walked only when computed, value always
    match (if computed then walkN m (none :: anc) (.propertyKey true) false key
      else .ok (key, m)) with
    | .error e => .error e
    | .ok (k1, m1) =>
      match walkN m1 (none :: anc) .propertyValue false value with
      | .error e => .error e
      | .ok (v1, m2) =>
        .ok (propVisitor m2 k1 v1 shorthand computed, m2)
  | .FunctionDeclaration none params body isAsync generator =>
    -- base.Function without id: params as Pattern, body as Statement
    match walkL m (none :: anc) .otherPos true params with
    | .error e => .error e
    | .ok (ps1, m2) =>
      match walkN m2 (none :: anc) .otherPos false body with
      | .error e => .error e
      | .ok (b1, m3) => .ok (fdVisitor m3 none ps1 b1 isAsync generator, m3)
  | .FunctionDeclaration (some i) params body isAsync generator =>
    -- base.Function: id as Pattern, params as Pattern, body as Statement
    match walkN m (none :: anc) .otherPos true i with
    | .error e => .error e
    | .ok (i1, m1) =>
      match walkL m1 (none :: anc) .otherPos true params with
      | .error e => .error e
      | .ok (ps1, m2) =>
        match walkN m2 (none :: anc) .otherPos false body with
        | .error e => .error e
        | .ok (b1, m3) => .ok (fdVisitor m3 (some i1) ps1 b1 isAsync generator, m3)
  | .FunctionExpression none params body isAsync generator =>
    match walkL m (none :: anc) .otherPos true params with
    | .error e => .error e
    | .ok (ps1, m2) =>
      match walkN m2 (none :: anc) .otherPos false body with
      | .error e => .error e
      | .ok (b1, m3) => .ok (.FunctionExpression none ps1 b1 isAsync generator, m3)
  | .FunctionExpression (some i) params body isAsync generator =>
    match walkN m (none :: anc) .otherPos true i with
    | .error e => .error e
    | .ok (i1, m1) =>
      match walkL m1 (none :: anc) .otherPos true params with
      | .error e => .error e
      | .ok (ps1, m2) =>
        match walkN m2 (none :: anc) .otherPos false body with
        | .error e => .error e
        | .ok (b1, m3) => .ok (.FunctionExpression (some i1) ps1 b1 isAsync generator, m3)
  | .ArrowFunctionExpression params body isAsync expression =>
    -- base.Function for arrows: params as Pattern, body as Expression when
    -- `expression` is set, else as Statement; either way the walk of the body
    -- node itself is the same
    match walkL m (none :: anc) .otherPos true params with
    | .error e => .error e
    | .ok (ps1, m1) =>
      match walkN m1 (none :: anc) .otherPos false body with
      | .error e => .error e
      | .ok (b1, m2) =>
        .ok (.ArrowFunctionExpression ps1 b1 isAsync expression, m2)

/-- Sequential walk of a child list (statement bodies, declarator lists,
call arguments, object properties, parameter lists), threading the varMap. -/
def walkL (m : VarMap) (anc : List (Option JStr)) (pp : ParentPos)
    (isPat : Bool) : List Node → Except WalkErr (List Node × VarMap)
  | [] => .ok ([], m)
  | x :: xs =>
    match walkN m anc pp isPat x with
    | .error e => .error e
    | .ok (x1, m1) =>
      match walkL m1 anc pp isPat xs with
      | .error e => .error e
      | .ok (xs1, m2) => .ok (x1 :: xs1, m2)

end

/-- The whole `walk.ancestor(ast, {...})` call (config.ts:190-324) starting
from an empty `varMap` and no ancestors. -/
def walkProgram (ast : Node) : Except WalkErr (Node × VarMap) :=
  walkN [] [] .otherPos false ast

/-- `transpileGlobalToInstance` (config.ts:183-331).  Parsing the source text
and serializing the resulting tree are the opaque parser/serializer
collaborators of spec section 6, so the model takes the parse outcome (the
thrown `SyntaxError`'s description on parse failure) and returns the rewritten
tree.  The surrounding try/catch logs the error to the console and returns
`null`, modeled by `none`; no exception escapes and no partial tree is
returned. -/
def transpileGlobalToInstance (parsed : Except JStr Node) : Option Node :=
  match parsed with
  | .error _ => none
  | .ok ast =>
    match walkProgram ast with
    | .error _ => none
    | .ok (n, _) => some n

/-- Transpiling an already-parsed program. -/
def transpileAst (ast : Node) : Option Node := transpileGlobalToInstance (.ok ast)

/-! ## Messaging channel: IframeMessageHandler (src/unnamed/part_000) -/

/-- The five built-in default origins
(`IframeMessageHandler.allowedOrigins`, part_000:47-53). -/
def defaultAllowedOrigins : List JStr :=
  [("http://localhost".toList), ("http://127.0.0.1".toList),
   ("http://localhost:5173".toList), ("http://localhost:3030".toList),
   ("http://localhost:8080".toList)]

/-- The constructor's treatment of `config.allowedOrigins` (part_000:78-83):
the caller-supplied list replaces the defaults only when it is an array with
`length > 0`. -/
def initAllowedOrigins (cfg : Option (List JStr)) : List JStr :=
  match cfg with
  | some l => if l.length > 0 then l else defaultAllowedOrigins
  | none => defaultAllowedOrigins

/-- The JS regex test `/^:\d+$/.test(remainder)` (part_000:185): a colon
followed by one or more characters of the class `\d`, i.e. `[0-9]`, which is
exactly `Char.isDigit`. -/
def colonDigitsTest : JStr → Bool
  | ':' :: ds => !ds.isEmpty && ds.all Char.isDigit
  | _ => false

/-- `isOriginAllowed` (part_000:172-189): exact membership in the allowed
list, or `origin.startsWith(allowed + ':')` together with the remainder
(`origin.substring(allowed.length)`) starting with `':'` and passing
`/^:\d+$/`. -/
def isOriginAllowed (allowedOrigins : List JStr) (origin : JStr) : Bool :=
  allowedOrigins.contains origin ||
  allowedOrigins.any (fun allowed =>
    if (allowed ++ [':']).isPrefixOf origin then
      [':'].isPrefixOf (origin.drop allowed.length) &&
        colonDigitsTest (origin.drop allowed.length)
    else false)

/-- A postMessage event as `handle` sees it: the origin, and `some t` when
`event.data` is a structured object whose `type` field is the string `t`
(`none` models data failing the shape guard of part_000:210-215). -/
structure JsMessageEvent where
  origin : JStr
  dataType : Option JStr

/-- `handle` (part_000:203-245) reduced to which registered handler (if any)
is invoked for an event: the origin guard, then the shape guard, then the
registered-type guard; the isolation copy (structuredClone, part_000:229-238)
succeeds on structured data and the handler of the message's type runs.
Returns the dispatched type, or `none` when every guard path returns without
invoking a handler. -/
def handleDispatch (allowedOrigins : List JStr) (registered : List JStr)
    (ev : JsMessageEvent) : Option JStr :=
  if !(isOriginAllowed allowedOrigins ev.origin) then none
  else
    match ev.dataType with
    | none => none
    | some t => if registered.contains t then some t else none

/-- The throttling/deduplication state for `p5-resize` messages
(part_000:54-60): the last applied dimensions, the time of the last applied
resize, the pending (not yet applied) dimensions, and whether a trailing-edge
timer is scheduled. -/
structure ResizeState where
  lastResize : Option (Int × Int)
  lastResizeTime : Int
  pendingResize : Option (Int × Int)
  pendingTimeout : Bool
deriving DecidableEq

/-- `throttleMs` (part_000:57). -/
def throttleMs : Int := 150

/-- The state of a freshly constructed handler (part_000:54-60). -/
def initialResizeState : ResizeState := ⟨none, 0, none, false⟩

/-- The two kinds of occurrences that drive the resize logic: a validated
`p5-resize` message with numeric width/height arriving when `Date.now()`
reads `now`, and the scheduled trailing-edge `setTimeout` callback running
when `Date.now()` reads `now`. -/
inductive ResizeEvent where
  | message (w h now : Int)
  | timerFire (now : Int)

/-- One step of the registered `p5-resize` handler (part_000:100-149) or of
the timer callback it schedules (part_000:138-144), returning the new state
and the list of `onResize` invocations it performs (each carrying the applied
width/height).  The duplicate checks against `lastResize` and `pendingResize`
drop the event; otherwise if the elapsed time since the last applied resize
reaches the throttle window the resize is applied immediately (clearing any
pending timer and pending value), else the dimensions become the pending
value and a trailing timer is (at most once) scheduled.  The timer callback
applies the latest pending value, if any, and clears the timer flag. -/
def resizeStep (s : ResizeState) : ResizeEvent → ResizeState × List (Int × Int)
  | .message w h now =>
    if s.lastResize = some (w, h) then (s, [])
    else if s.pendingResize = some (w, h) then (s, [])
    else
      if now - s.lastResizeTime ≥ throttleMs then
        (⟨some (w, h), now, none, false⟩, [(w, h)])
      else
        ({ s with pendingResize := some (w, h), pendingTimeout := true }, [])
  | .timerFire now =>
    if s.pendingTimeout then
      match s.pendingResize with
      | some (w, h) => (⟨some (w, h), now, none, false⟩, [(w, h)])
      | none => ({ s with pendingTimeout := false }, [])
    else (s, [])

/-- Running a sequence of resize events, collecting all `onResize`
invocations in order. -/
def runResize (s : ResizeState) : List ResizeEvent → ResizeState × List (Int × Int)
  | [] => (s, [])
  | e :: es =>
    let s1 := resizeStep s e
    let s2 := runResize s1.1 es
    (s2.1, s1.2 ++ s2.2)

/-- `reset` (part_000:281-288): clears `lastResize` and `pendingResize` and
cancels (clearTimeout) any pending timer; `lastResizeTime` is not touched. -/
def resetResize (s : ResizeState) : ResizeState :=
  { s with lastResize := none, pendingResize := none, pendingTimeout := false }

/-! ## Error line mapper (src/setup/cleanup-manager.ts, ErrorLineMapper) -/

/-- The `ErrorLineMapper` state (cleanup-manager.ts:251-255): the source split
into lines, the transpiled code, and the injected-lines offset. -/
structure ErrorLineMapper where
  sourceLines : List JStr
  transpiledCode : JStr
  htmlOffset : Int

/-- The `ErrorLineMapper` constructor (cleanup-manager.ts:268-276):
`sourceCode.split('\n')` and the injected line count. -/
def ErrorLineMapper.create (sourceCode transpiledCode : JStr)
    (injectedLinesCount : Int) : ErrorLineMapper :=
  ⟨sourceCode.splitOn '\n', transpiledCode, injectedLinesCount⟩

/-- `mapErrorLine` (cleanup-manager.ts:287-304). -/
def ErrorLineMapper.mapErrorLine (self : ErrorLineMapper)
    (transpiledLine : Int) : Int :=
  if transpiledLine ≤ 0 then 1
  else
    if transpiledLine - self.htmlOffset ≤ 0 then 1
    else if transpiledLine - self.htmlOffset > self.sourceLines.length then
      (self.sourceLines.length : Int)
    else transpiledLine - self.htmlOffset

/-! ## Claims about the messaging channel and the line mapper -/

/-- C2: the origin guard accepts exactly an exact allowed origin or an allowed
origin followed by a colon and a nonempty all-digit port; with
`http://localhost` allowed, `http://localhost:5173` is accepted (handler
dispatches) and `http://localhost-attacker.com` is rejected (no handler
runs). -/
theorem c2_origin_guard :
    (∀ (allowed : List JStr) (origin : JStr),
      isOriginAllowed allowed origin = true ↔
        (origin ∈ allowed ∨
          ∃ a ∈ allowed, ∃ port : JStr, port ≠ [] ∧ (∀ c ∈ port, c.isDigit) ∧
            origin = a ++ ':' :: port)) ∧
    handleDispatch [("http://localhost".toList)] [("p5-resize".toList)]
      ⟨("http://localhost:5173".toList), some ("p5-resize".toList)⟩ =
      some ("p5-resize".toList) ∧
    handleDispatch [("http://localhost".toList)] [("p5-resize".toList)]
      ⟨("http://localhost-attacker.com".toList), some ("p5-resize".toList)⟩ =
      none := by
  refine ⟨?_, by decide, by decide⟩
  intro allowed origin
  unfold isOriginAllowed
  simp only [Bool.or_eq_true, List.elem_iff, List.any_eq_true]
  constructor
  · rintro (h | ⟨a, ha, hif⟩)
    · exact Or.inl h
    · right
      by_cases hp : (a ++ [':']).isPrefixOf origin
      · rw [if_pos hp, Bool.and_eq_true] at hif
        obtain ⟨t, ht⟩ := List.isPrefixOf_iff_prefix.mp hp
        obtain ⟨-, hd⟩ := hif
        rw [← ht, List.append_assoc, List.drop_left, List.singleton_append] at hd
        cases t with
        | nil => simp [colonDigitsTest] at hd
        | cons c cs =>
          simp only [colonDigitsTest, Bool.and_eq_true, List.all_eq_true] at hd
          refine ⟨a, ha, c :: cs, by simp, hd.2, ?_⟩
          rw [← ht, List.append_assoc]
          rfl
      · rw [if_neg hp] at hif
        exact absurd hif (by simp)
  · rintro (h | ⟨a, ha, port, hne, hdig, heq⟩)
    · exact Or.inl h
    · right
      refine ⟨a, ha, ?_⟩
      have hp : (a ++ [':']).isPrefixOf origin = true := by
        rw [List.isPrefixOf_iff_prefix, heq]
        exact ⟨port, by simp⟩
      rw [if_pos hp, heq, List.drop_left]
      cases port with
      | nil => exact absurd rfl hne
      | cons c cs =>
        simp only [colonDigitsTest, Bool.and_eq_true, List.all_eq_true,
          List.isEmpty_cons, Bool.not_false]
        refine ⟨by simp [List.isPrefixOf_iff_prefix, List.cons_prefix_cons], by simp, hdig⟩

/-- C2 witness: the general origin-guard characterization applied at a
concrete allowed list and origin. -/
theorem c2_origin_guard_witness :
    isOriginAllowed [("http://localhost".toList)] ("http://localhost:5173".toList) = true :=
  (c2_origin_guard.1 _ _).mpr
    (Or.inr ⟨("http://localhost".toList), by decide, ("5173".toList), by decide,
      by decide, by decide⟩)

/-- C10: an empty or omitted `allowedOrigins` array leaves the five built-in
defaults in effect; a non-empty caller-supplied list replaces them. -/
theorem c10_allowed_origins_defaulting :
    initAllowedOrigins none = defaultAllowedOrigins ∧
    initAllowedOrigins (some []) = defaultAllowedOrigins ∧
    ∀ l : List JStr, l ≠ [] → initAllowedOrigins (some l) = l := by
  refine ⟨rfl, rfl, fun l hl => ?_⟩
  simp [initAllowedOrigins, List.length_pos.mpr hl]

/-- C10 witness: a concrete non-empty list replaces the defaults, while the
empty and omitted configurations keep them. -/
theorem c10_allowed_origins_defaulting_witness :
    initAllowedOrigins (some [("http://example.com:9999".toList)]) =
      [("http://example.com:9999".toList)] :=
  c10_allowed_origins_defaulting.2.2 _ (by decide)

/-- C6: within one throttle window after an applied resize, two identical
resize reports produce exactly one `onResize` invocation (the duplicate is
dropped before the trailing timer fires), and two distinct reports produce
exactly one invocation carrying only the later values (trailing-edge
coalescing). -/
theorem c6_resize_throttle_coalescing
    (w0 h0 w h w1 h1 w2 h2 T t1 t2 tf : Int)
    (hdup : (w, h) ≠ (w0, h0))
    (h1d : (w1, h1) ≠ (w0, h0)) (h2d : (w2, h2) ≠ (w0, h0))
    (h12 : (w2, h2) ≠ (w1, h1))
    (ht1 : T ≤ t1) (ht12 : t1 ≤ t2) (ht2 : t2 < T + throttleMs) :
    (runResize ⟨some (w0, h0), T, none, false⟩
      [.message w h t1, .message w h t2, .timerFire tf]).2 = [(w, h)] ∧
    (runResize ⟨some (w0, h0), T, none, false⟩
      [.message w1 h1 t1, .message w2 h2 t2, .timerFire tf]).2 = [(w2, h2)] := by
  have hx : ∀ x y x0 y0 : Int, (x, y) ≠ (x0, y0) → ¬(some (x0, y0) = some (x, y)) := by
    intro x y x0 y0 hne hc
    rw [Option.some.injEq, Prod.mk.injEq] at hc
    exact hne (by rw [hc.1, hc.2])
  have hthr : throttleMs = 150 := rfl
  rw [hthr] at ht2
  constructor
  · have e1 : resizeStep ⟨some (w0, h0), T, none, false⟩ (.message w h t1) =
        (⟨some (w0, h0), T, some (w, h), true⟩, []) := by
      simp only [resizeStep]
      rw [if_neg (hx _ _ _ _ hdup), if_neg (by simp), if_neg (by rw [hthr]; omega)]
    have e2 : resizeStep ⟨some (w0, h0), T, some (w, h), true⟩ (.message w h t2) =
        (⟨some (w0, h0), T, some (w, h), true⟩, []) := by
      simp only [resizeStep]
      rw [if_neg (hx _ _ _ _ hdup)]
      simp
    have e3 : resizeStep ⟨some (w0, h0), T, some (w, h), true⟩ (.timerFire tf) =
        (⟨some (w, h), tf, none, false⟩, [(w, h)]) := by
      simp [resizeStep]
    simp [runResize, e1, e2, e3]
  · have e1 : resizeStep ⟨some (w0, h0), T, none, false⟩ (.message w1 h1 t1) =
        (⟨some (w0, h0), T, some (w1, h1), true⟩, []) := by
      simp only [resizeStep]
      rw [if_neg (hx _ _ _ _ h1d), if_neg (by simp), if_neg (by rw [hthr]; omega)]
    have e2 : resizeStep ⟨some (w0, h0), T, some (w1, h1), true⟩ (.message w2 h2 t2) =
        (⟨some (w0, h0), T, some (w2, h2), true⟩, []) := by
      simp only [resizeStep]
      rw [if_neg (hx _ _ _ _ h2d), if_neg (hx _ _ _ _ h12), if_neg (by rw [hthr]; omega)]
    have e3 : resizeStep ⟨some (w0, h0), T, some (w2, h2), true⟩ (.timerFire tf) =
        (⟨some (w2, h2), tf, none, false⟩, [(w2, h2)]) := by
      simp [resizeStep]
    simp [runResize, e1, e2, e3]

/-- C6 witness: the throttle-window scenario at concrete dimensions and
times. -/
theorem c6_resize_throttle_coalescing_witness :
    (runResize ⟨some (100, 100), 1000, none, false⟩
      [.message 200 50 1010, .message 200 50 1020, .timerFire 1150]).2 =
      [((200 : Int), (50 : Int))] ∧
    (runResize ⟨some (100, 100), 1000, none, false⟩
      [.message 200 50 1010, .message 300 120 1020, .timerFire 1150]).2 =
      [((300 : Int), (120 : Int))] :=
  c6_resize_throttle_coalescing 100 100 200 50 200 50 300 120 1000 1010 1020 1150
    (by decide) (by decide) (by decide) (by decide) (by decide) (by decide) (by decide)

/-- C7: `reset()` clears `lastResize` and `pendingResize` and cancels the
pending timer, and afterwards any resize report, in particular one whose
dimensions equal the last value applied before the reset, still produces an
`onResize` invocation (immediately, or through the trailing timer). -/
theorem c7_reset_clears_dedup (s : ResizeState) (w h t tf : Int) :
    (resetResize s).lastResize = none ∧
    (resetResize s).pendingResize = none ∧
    (resetResize s).pendingTimeout = false ∧
    (runResize (resetResize s) [.message w h t, .timerFire tf]).2 = [(w, h)] := by
  refine ⟨rfl, rfl, rfl, ?_⟩
  simp only [runResize, resizeStep, resetResize]
  by_cases hel : t - s.lastResizeTime ≥ throttleMs
  · rw [if_neg (by simp), if_neg (by simp), if_pos hel]
    simp
  · rw [if_neg (by simp), if_neg (by simp), if_neg hel]
    simp

/-- C8: `mapErrorLine` computes `clamp(reported - injectedLineOffset, 1,
sourceLineCount)` for every reported line and every nonnegative injected
offset; with offset 10 a report at line 15 maps to 5, a report at or below
the offset (including nonpositive reports) maps to 1, and a report beyond the
source length maps to the last source line. -/
theorem c8_map_error_line_clamp :
    (∀ (src trans : JStr) (k n : Int), 0 ≤ k →
      (ErrorLineMapper.create src trans k).mapErrorLine n =
        max 1 (min (n - k)
          ((ErrorLineMapper.create src trans k).sourceLines.length : Int))) ∧
    (ErrorLineMapper.create ("a\nb\nc\nd\ne\nf".toList) [] 10).mapErrorLine 15 = 5 ∧
    (ErrorLineMapper.create ("a\nb\nc\nd\ne\nf".toList) [] 10).mapErrorLine 10 = 1 ∧
    (ErrorLineMapper.create ("a\nb\nc\nd\ne\nf".toList) [] 10).mapErrorLine (-3) = 1 ∧
    (ErrorLineMapper.create ("a\nb\nc\nd\ne\nf".toList) [] 10).mapErrorLine 100 = 6 := by
  refine ⟨?_, by decide, by decide, by decide, by decide⟩
  intro src trans k n hk
  have hlen : 0 < (src.splitOn '\n').length :=
    List.length_pos.mpr (List.splitOnP_ne_nil _ src)
  unfold ErrorLineMapper.create ErrorLineMapper.mapErrorLine
  simp only []
  split_ifs <;> [skip; skip; skip; skip] <;> omega

/-- C8 witness: the clamp form applied at a concrete mapper and line. -/
theorem c8_map_error_line_clamp_witness :
    (ErrorLineMapper.create ("x\ny".toList) [] 10).mapErrorLine 15 =
      max 1 (min 5 ((ErrorLineMapper.create ("x\ny".toList) [] 10).sourceLines.length : Int)) :=
  c8_map_error_line_clamp.1 _ _ 10 15 (by decide)

/-! ## Claims about the transpiler: failure policy (C9) -/

/-- C9 counterexample: the claim says a failed transpile returns a typed
failure value carrying an enclosed error object describing the syntax
problem, but `transpileGlobalToInstance` returns the same bare `null` for
every parse error, so no function can recover any description of the error
from the returned failure value. -/
theorem c9_failure_value_carries_no_error :
    ¬ ∃ describe : Option Node → JStr,
      ∀ e : JStr, describe (transpileGlobalToInstance (.error e)) = e := by
  rintro ⟨describe, hd⟩
  have h1 := hd ("a".toList)
  have h2 := hd ("b".toList)
  rw [show transpileGlobalToInstance (.error ("a".toList)) = none from rfl] at h1
  rw [show transpileGlobalToInstance (.error ("b".toList)) = none from rfl] at h2
  rw [h1] at h2
  exact absurd h2 (by decide)

/-- C9 amended: on any parse failure or traversal failure the transpiler
returns `null` (a typed failure value that does not enclose the error, which
is only logged), never an exception and never partial output; on success the
returned program is exactly the fully walked tree. -/
theorem c9_failure_returns_null :
    (∀ e : JStr, transpileGlobalToInstance (.error e) = none) ∧
    (∀ ast err, walkProgram ast = .error err → transpileAst ast = none) ∧
    (∀ ast out, transpileAst ast = some out →
      ∃ mFinal, walkProgram ast = .ok (out, mFinal)) := by
  refine ⟨fun e => rfl, ?_, ?_⟩
  · intro ast err h
    show (match walkProgram ast with
      | Except.error _ => (none : Option Node)
      | Except.ok (n, _) => some n) = none
    rw [h]
  · intro ast out h
    have h2 : (match walkProgram ast with
      | Except.error _ => (none : Option Node)
      | Except.ok (n, _) => some n) = some out := h
    cases hw : walkProgram ast with
    | error e => rw [hw] at h2; exact absurd h2 (by simp)
    | ok r =>
      rw [hw] at h2
      obtain ⟨n, m⟩ := r
      simp only [Option.some.injEq] at h2
      exact ⟨m, by rw [h2]⟩

/-- C9 witness: a concrete traversal failure (an empty destructuring
declarator makes the VariableDeclaration visitor read `.name` of a pattern,
throwing) returns `null`. -/
theorem c9_failure_returns_null_witness :
    transpileAst (.Program [.VariableDeclaration ("let".toList)
      [.VariableDeclarator .ObjectPattern (some (.Identifier ("o".toList)))]]) = none :=
  c9_failure_returns_null.2.1 _ WalkErr.noName rfl

/-! ## Claims about the transpiler: key integrity (C1) -/

mutual

/-- All non-computed object-literal property keys of a tree, in traversal
order, each as the whole key node; subtrees of computed keys are searched
recursively (a computed key is a key expression, not key text). -/
def keysN : Node → List Node
  | .Identifier _ => []
  | .Lit _ => []
  | .ObjectPattern => []
  | .Program b => keysL b
  | .ExpressionStatement e => keysN e
  | .BlockStatement b => keysL b
  | .VariableDeclaration _ d => keysL d
  | .VariableDeclarator id none => keysN id
  | .VariableDeclarator id (some i) => keysN id ++ keysN i
  | .AssignmentExpression _ l r => keysN l ++ keysN r
  | .CallExpression c a => keysN c ++ keysL a
  | .MemberExpression o p computed => keysN o ++ (if computed then keysN p else [])
  | .ObjectExpression ps => keysL ps
  | .Property k v _ computed => (if computed then keysN k else [k]) ++ keysN v
  | .FunctionDeclaration none ps b _ _ => keysL ps ++ keysN b
  | .FunctionDeclaration (some i) ps b _ _ => keysN i ++ keysL ps ++ keysN b
  | .FunctionExpression none ps b _ _ => keysL ps ++ keysN b
  | .FunctionExpression (some i) ps b _ _ => keysN i ++ keysL ps ++ keysN b
  | .ArrowFunctionExpression ps b _ _ => keysL ps ++ keysN b

/-- Non-computed property keys of a list of trees. -/
def keysL : List Node → List Node
  | [] => []
  | x :: xs => keysN x ++ keysL xs

end

/-- Joint structural induction over `Node` and `List Node` (derived from the
recursion pattern of `keysN`). -/
theorem nodeMutualInd (P : Node → Prop) (Q : List Node → Prop)
    (hIdent : ∀ s, P (.Identifier s))
    (hLit : ∀ r, P (.Lit r))
    (hPat : P .ObjectPattern)
    (hProg : ∀ b, Q b → P (.Program b))
    (hExprSt : ∀ e, P e → P (.ExpressionStatement e))
    (hBlock : ∀ b, Q b → P (.BlockStatement b))
    (hVarDecl : ∀ k d, Q d → P (.VariableDeclaration k d))
    (hDeclN : ∀ id, P id → P (.VariableDeclarator id none))
    (hDeclS : ∀ id i, P id → P i → P (.VariableDeclarator id (some i)))
    (hAssign : ∀ op l r, P l → P r → P (.AssignmentExpression op l r))
    (hCall : ∀ c a, P c → Q a → P (.CallExpression c a))
    (hMember : ∀ o p c, P o → P p → P (.MemberExpression o p c))
    (hObj : ∀ ps, Q ps → P (.ObjectExpression ps))
    (hProp : ∀ k v sh c, P k → P v → P (.Property k v sh c))
    (hFDN : ∀ ps b a g, Q ps → P b → P (.FunctionDeclaration none ps b a g))
    (hFDS : ∀ i ps b a g, P i → Q ps → P b → P (.FunctionDeclaration (some i) ps b a g))
    (hFEN : ∀ ps b a g, Q ps → P b → P (.FunctionExpression none ps b a g))
    (hFES : ∀ i ps b a g, P i → Q ps → P b → P (.FunctionExpression (some i) ps b a g))
    (hArrow : ∀ ps b a e, Q ps → P b → P (.ArrowFunctionExpression ps b a e))
    (hNil : Q [])
    (hCons : ∀ x xs, P x → Q xs → Q (x :: xs)) :
    (∀ n, P n) ∧ (∀ l, Q l) :=
  ⟨fun n => keysN.induct P Q hIdent hLit hPat hProg hExprSt hBlock hVarDecl hDeclN
    hDeclS hAssign hCall hMember hObj hProp hFDN hFDS hFEN hFES hArrow hNil hCons n,
   fun l => keysL.induct P Q hIdent hLit hPat hProg hExprSt hBlock hVarDecl hDeclN
    hDeclS hAssign hCall hMember hObj hProp hFDN hFDS hFEN hFES hArrow hNil hCons l⟩

/-- `getName` inversion. -/
theorem getName_eq_some {n : Node} {s : JStr} (h : getName n = some s) :
    n = .Identifier s := by
  cases n <;> simp [getName] at h
  rw [h]

/-- The assignment visitor never changes the collected keys of a side (it
only replaces identifiers by identifiers). -/
theorem keysN_assignVisitorSide (m : VarMap) (x : Node) :
    keysN (assignVisitorSide m x) = keysN x := by
  unfold assignVisitorSide
  split
  · split <;> rfl
  · rfl

/-- The Property visitor keeps the key node and the keys collected under the
value (the value is only ever replaced by an identifier when it already is
one). -/
theorem keysN_propVisitor (m : VarMap) (k1 v1 : Node) (sh comp : Bool) :
    keysN (propVisitor m k1 v1 sh comp) =
      (if comp then keysN k1 else [k1]) ++ keysN v1 := by
  unfold propVisitor
  split
  · split <;> simp [keysN]
  · simp [keysN]

/-- The FunctionDeclaration visitor preserves the keys collected under the
id, parameters and body. -/
theorem keysN_fdVisitor (m : VarMap) (id1 : Option Node) (ps1 : List Node)
    (b1 : Node) (a g : Bool) :
    keysN (fdVisitor m id1 ps1 b1 a g) =
      (match id1 with | some i => keysN i | none => []) ++ keysL ps1 ++ keysN b1 := by
  unfold fdVisitor
  split
  · split <;> simp [keysN]
  · cases id1 with
    | none => simp [keysN]
    | some i => simp [keysN]

/-- Inversion of the lifecycle pattern match of the VariableDeclaration
visitor. -/
theorem lifecycleDecl_inv {ds : List Node} {name : JStr} {init : Node}
    (h : lifecycleDecl ds = some (name, init)) :
    ds = [.VariableDeclarator (.Identifier name) (some init)] ∧
      isLifecycleName name = true ∧ isFnInit init = true := by
  unfold lifecycleDecl at h
  split at h
  · rename_i nm i
    split at h
    · rename_i hli
      rw [Option.some.injEq, Prod.mk.injEq] at h
      rw [Bool.and_eq_true] at hli
      exact ⟨by rw [h.1, h.2], by rw [← h.1]; exact hli.1, by rw [← h.2]; exact hli.2⟩
    · exact absurd h (by simp)
  · exact absurd h (by simp)

/-- One forEach step of the declarator renaming keeps collected keys. -/
theorem renameOneDecl_keys {m : VarMap} {d d1 : Node} {m1 : VarMap}
    (h : renameOneDecl m d = .ok (d1, m1)) : keysN d1 = keysN d := by
  unfold renameOneDecl at h
  split at h
  · rename_i id init
    split at h
    · rename_i varName heq
      rw [getName_eq_some heq]
      cases h
      cases init <;> simp [keysN]
    · exact absurd h (by simp)
  · exact absurd h (by simp)

/-- The declarator renaming loop keeps collected keys. -/
theorem renameDecls_keys : ∀ (ds : List Node) (m : VarMap) (ds1 : List Node)
    (m1 : VarMap), renameDecls m ds = .ok (ds1, m1) → keysL ds1 = keysL ds := by
  intro ds
  induction ds with
  | nil =>
    intro m ds1 m1 h
    cases h
    rfl
  | cons d ds ih =>
    intro m ds1 m1 h
    simp only [renameDecls] at h
    split at h
    · exact absurd h (by simp)
    · rename_i d1 m1a hone
      split at h
      · exact absurd h (by simp)
      · rename_i ds2 m2 hds
        cases h
        simp only [keysL]
        rw [renameOneDecl_keys hone, ih _ _ _ hds]

/-- The acorn-walk traversal never changes the list of non-computed
object-literal property keys (nor any key node itself). -/
theorem walkKeys :
    (∀ n, ∀ m anc pp pat r, walkN m anc pp pat n = .ok r → keysN r.1 = keysN n) ∧
    (∀ l, ∀ m anc pp pat r, walkL m anc pp pat l = .ok r → keysL r.1 = keysL l) := by
  refine nodeMutualInd _ _ ?_ ?_ ?_ ?_ ?_ ?_ ?_ ?_ ?_ ?_ ?_ ?_ ?_ ?_ ?_ ?_ ?_ ?_ ?_ ?_ ?_
  · intro s m anc pp pat r h
    simp only [walkN] at h
    split at h <;> (cases h; rfl)
  · intro rw m anc pp pat r h
    simp only [walkN] at h
    cases h
    rfl
  · intro m anc pp pat r h
    simp only [walkN] at h
    cases h
    rfl
  · intro b ih m anc pp pat r h
    simp only [walkN] at h
    split at h
    · exact absurd h (by simp)
    · rename_i b1 m1 heq
      cases h
      exact ih _ _ _ _ _ heq
  · intro e ih m anc pp pat r h
    simp only [walkN] at h
    split at h
    · exact absurd h (by simp)
    · rename_i e1 m1 heq
      cases h
      have hh : keysN e1 = keysN e := ih _ _ _ _ _ heq
      simp only [keysN]
      exact hh
  · intro b ih m anc pp pat r h
    simp only [walkN] at h
    split at h
    · exact absurd h (by simp)
    · rename_i b1 m1 heq
      cases h
      exact ih _ _ _ _ _ heq
  · intro k d ih m anc pp pat r h
    simp only [walkN] at h
    split at h
    · exact absurd h (by simp)
    · rename_i ds m1 heq
      split at h
      · rename_i nm init hlc
        cases h
        obtain ⟨hds, -, -⟩ := lifecycleDecl_inv hlc
        have hkeys := ih _ _ _ _ _ heq
        rw [hds] at hkeys
        simp only [keysN, keysL, List.append_nil] at hkeys ⊢
        simpa using hkeys
      · split at h
        · exact absurd h (by simp)
        · rename_i ds1 m2 hrd
          cases h
          simp only [keysN]
          rw [renameDecls_keys _ _ _ _ hrd, ih _ _ _ _ _ heq]
  · intro id ihid m anc pp pat r h
    simp only [walkN] at h
    split at h
    · exact absurd h (by simp)
    · rename_i id1 m1 heq
      cases h
      simp only [keysN]
      exact ihid _ _ _ _ _ heq
  · intro id i ihid ihi m anc pp pat r h
    simp only [walkN] at h
    split at h
    · exact absurd h (by simp)
    · rename_i id1 m1 heq
      split at h
      · exact absurd h (by simp)
      · rename_i i1 m2 hi
        cases h
        simp only [keysN]
        rw [ihid _ _ _ _ _ heq, ihi _ _ _ _ _ hi]
  · intro op l rr ihl ihr m anc pp pat r h
    simp only [walkN] at h
    split at h
    · exact absurd h (by simp)
    · rename_i l1 m1 hl
      split at h
      · exact absurd h (by simp)
      · rename_i r1 m2 hr
        cases h
        simp only [keysN, keysN_assignVisitorSide]
        rw [ihl _ _ _ _ _ hl, ihr _ _ _ _ _ hr]
  · intro c a ihc iha m anc pp pat r h
    simp only [walkN] at h
    split at h
    · exact absurd h (by simp)
    · rename_i c1 m1 hc
      split at h
      · exact absurd h (by simp)
      · rename_i a1 m2 ha
        cases h
        simp only [keysN]
        rw [ihc _ _ _ _ _ hc, iha _ _ _ _ _ ha]
  · intro o p comp iho ihp m anc pp pat r h
    simp only [walkN] at h
    split at h
    · exact absurd h (by simp)
    · rename_i o1 m1 ho
      split at h
      · rename_i hcomp
        split at h
        · exact absurd h (by simp)
        · rename_i p1 m2 hp
          cases h
          simp only [keysN, hcomp, if_true]
          rw [iho _ _ _ _ _ ho, ihp _ _ _ _ _ hp]
      · rename_i hcomp
        cases h
        simp only [keysN]
        rw [iho _ _ _ _ _ ho]
  · intro ps ih m anc pp pat r h
    simp only [walkN] at h
    split at h
    · exact absurd h (by simp)
    · rename_i ps1 m1 heq
      cases h
      exact ih _ _ _ _ _ heq
  · intro k v sh comp ihk ihv m anc pp pat r h
    simp only [walkN] at h
    split at h
    · exact absurd h (by simp)
    · rename_i k1 m1 hk
      split at h
      · exact absurd h (by simp)
      · rename_i v1 m2 hv
        cases h
        rw [keysN_propVisitor]
        simp only [keysN]
        have hvk : keysN v1 = keysN v := ihv _ _ _ _ _ hv
        by_cases hcomp : comp = true
        · rw [if_pos hcomp] at hk
          have hkk : keysN k1 = keysN k := ihk _ _ _ _ _ hk
          subst hcomp
          simp only [if_true]
          rw [hkk, hvk]
        · have hcf : comp = false := by
            cases comp
            · rfl
            · exact absurd rfl hcomp
          subst hcf
          simp only [Bool.false_eq_true, if_false] at hk
          cases hk
          simp only [Bool.false_eq_true, if_false]
          rw [hvk]
  · intro ps b a g ihps ihb m anc pp pat r h
    simp only [walkN] at h
    split at h
    · exact absurd h (by simp)
    · rename_i ps1 m2 hps
      split at h
      · exact absurd h (by simp)
      · rename_i b1 m3 hb
        cases h
        rw [keysN_fdVisitor]
        have h2 : keysL ps1 = keysL ps := ihps _ _ _ _ _ hps
        have h3 : keysN b1 = keysN b := ihb _ _ _ _ _ hb
        simp only [keysN, h2, h3, List.nil_append]
  · intro i ps b a g ihi ihps ihb m anc pp pat r h
    simp only [walkN] at h
    split at h
    · exact absurd h (by simp)
    · rename_i i1 m1 hi
      split at h
      · exact absurd h (by simp)
      · rename_i ps1 m2 hps
        split at h
        · exact absurd h (by simp)
        · rename_i b1 m3 hb
          cases h
          rw [keysN_fdVisitor]
          have h1 : keysN i1 = keysN i := ihi _ _ _ _ _ hi
          have h2 : keysL ps1 = keysL ps := ihps _ _ _ _ _ hps
          have h3 : keysN b1 = keysN b := ihb _ _ _ _ _ hb
          simp only [keysN, h1, h2, h3, List.append_assoc]
  · intro ps b a g ihps ihb m anc pp pat r h
    simp only [walkN] at h
    split at h
    · exact absurd h (by simp)
    · rename_i ps1 m2 hps
      split at h
      · exact absurd h (by simp)
      · rename_i b1 m3 hb
        cases h
        simp only [keysN]
        rw [ihps _ _ _ _ _ hps, ihb _ _ _ _ _ hb]
  · intro i ps b a g ihi ihps ihb m anc pp pat r h
    simp only [walkN] at h
    split at h
    · exact absurd h (by simp)
    · rename_i i1 m1 hi
      split at h
      · exact absurd h (by simp)
      · rename_i ps1 m2 hps
        split at h
        · exact absurd h (by simp)
        · rename_i b1 m3 hb
          cases h
          simp only [keysN]
          rw [ihi _ _ _ _ _ hi, ihps _ _ _ _ _ hps, ihb _ _ _ _ _ hb]
  · intro ps b a e ihps ihb m anc pp pat r h
    simp only [walkN] at h
    split at h
    · exact absurd h (by simp)
    · rename_i ps1 m1 hps
      split at h
      · exact absurd h (by simp)
      · rename_i b1 m2 hb
        cases h
        simp only [keysN]
        rw [ihps _ _ _ _ _ hps, ihb _ _ _ _ _ hb]
  · intro m anc pp pat r h
    cases h
    rfl
  · intro x xs ihx ihxs m anc pp pat r h
    simp only [walkL] at h
    split at h
    · exact absurd h (by simp)
    · rename_i x1 m1 hx
      split at h
      · exact absurd h (by simp)
      · rename_i xs1 m2 hxs
        cases h
        simp only [keysL]
        rw [ihx _ _ _ _ _ hx, ihxs _ _ _ _ _ hxs]

/-- C1: for every program in the fragment, a successful transpile leaves the
list of non-computed object-literal property keys (each taken as a whole
node) unchanged; concretely, `let size = 10; const obj = { size: 1 };` keeps
`size: 1` verbatim while renaming the declaration, and
`let size = 10; const obj = { size };` expands the shorthand to
`{ size: _size }` with the key text preserved verbatim. -/
theorem c1_property_key_integrity :
    (∀ p q, transpileAst p = some q → keysN q = keysN p) ∧
    transpileAst (.Program
      [.VariableDeclaration ("let".toList)
        [.VariableDeclarator (.Identifier ("size".toList)) (some (.Lit ("10".toList)))],
       .VariableDeclaration ("const".toList)
        [.VariableDeclarator (.Identifier ("obj".toList)) (some (.ObjectExpression
          [.Property (.Identifier ("size".toList)) (.Lit ("1".toList)) false false]))]]) =
    some (.Program
      [.VariableDeclaration ("let".toList)
        [.VariableDeclarator (.Identifier ("_size".toList)) (some (.Lit ("10".toList)))],
       .VariableDeclaration ("const".toList)
        [.VariableDeclarator (.Identifier ("_obj".toList)) (some (.ObjectExpression
          [.Property (.Identifier ("size".toList)) (.Lit ("1".toList)) false false]))]]) ∧
    transpileAst (.Program
      [.VariableDeclaration ("let".toList)
        [.VariableDeclarator (.Identifier ("size".toList)) (some (.Lit ("10".toList)))],
       .VariableDeclaration ("const".toList)
        [.VariableDeclarator (.Identifier ("obj".toList)) (some (.ObjectExpression
          [.Property (.Identifier ("size".toList)) (.Identifier ("size".toList)) true false]))]]) =
    some (.Program
      [.VariableDeclaration ("let".toList)
        [.VariableDeclarator (.Identifier ("_size".toList)) (some (.Lit ("10".toList)))],
       .VariableDeclaration ("const".toList)
        [.VariableDeclarator (.Identifier ("_obj".toList)) (some (.ObjectExpression
          [.Property (.Identifier ("size".toList)) (.Identifier ("_size".toList)) false false]))]]) := by
  refine ⟨?_, rfl, rfl⟩
  intro p q h
  have h2 : (match walkProgram p with
    | Except.error _ => (none : Option Node)
    | Except.ok (n, _) => some n) = some q := h
  cases hw : walkProgram p with
  | error e => rw [hw] at h2; exact absurd h2 (by simp)
  | ok r =>
    rw [hw] at h2
    obtain ⟨n, m⟩ := r
    simp only [Option.some.injEq] at h2
    subst h2
    exact walkKeys.1 p _ _ _ _ _ hw

/-- C1 witness: the general key-preservation statement applied to a concrete
program. -/
theorem c1_property_key_integrity_witness :
    keysN (.Program
      [.VariableDeclaration ("let".toList)
        [.VariableDeclarator (.Identifier ("_x".toList)) (some (.ObjectExpression
          [.Property (.Identifier ("a".toList)) (.Lit ("1".toList)) false false]))]]) =
    keysN (.Program
      [.VariableDeclaration ("let".toList)
        [.VariableDeclarator (.Identifier ("x".toList)) (some (.ObjectExpression
          [.Property (.Identifier ("a".toList)) (.Lit ("1".toList)) false false]))]]) :=
  c1_property_key_integrity.1 _ _ rfl

/-! ## Claims about the transpiler: renaming substitution (C3) -/

/-- C3 counterexample: in `let f = 1; f(f);` the declaration is renamed to
`_f`, but the later reference used as the call's callee — and even the
argument, because it shares the callee's name — is left as `f`, so the
transpiler does not substitute the renamed identifier at every later
reference. -/
theorem c3_callee_reference_not_renamed :
    transpileAst (.Program
      [.VariableDeclaration ("let".toList)
        [.VariableDeclarator (.Identifier ("f".toList)) (some (.Lit ("1".toList)))],
       .ExpressionStatement (.CallExpression (.Identifier ("f".toList))
        [.Identifier ("f".toList)])]) =
    some (.Program
      [.VariableDeclaration ("let".toList)
        [.VariableDeclarator (.Identifier ("_f".toList)) (some (.Lit ("1".toList)))],
       .ExpressionStatement (.CallExpression (.Identifier ("f".toList))
        [.Identifier ("f".toList)])]) := rfl

/-- Walking a list of identifier parameters in pattern position changes
nothing (acorn-walk dispatches them as VariablePattern, with no visitor). -/
theorem walkL_pattern_idents (m : VarMap) (anc : List (Option JStr))
    (pp : ParentPos) :
    ∀ ps : List Node, (∀ p ∈ ps, ∃ s, p = .Identifier s) →
      walkL m anc pp true ps = .ok (ps, m) := by
  intro ps
  induction ps with
  | nil => intro _; rfl
  | cons p ps ih =>
    intro hp
    obtain ⟨s, hs⟩ := hp p (by simp)
    subst hs
    have ih2 := ih (fun x hx => hp x (by simp [hx]))
    simp [walkL, walkN, ih2]

/-- A self-comparison with the underscored name is never true. -/
theorem self_beq_underscore (s : JStr) : (s == '_' :: s) = false := by
  rw [beq_eq_false_iff_ne]
  intro h
  have := congrArg List.length h
  simp at this

/-- C3 amended: a top-level declaration with a fresh non-lifecycle,
non-global name `n` is renamed to unformly underscore-prefixed `_n` on first
sight, and every later reference that is a plain identifier read, either side
of an assignment, or an object-literal property value is substituted with
`_n` — except references placed inside a call whose callee identifier carries
the same original name (in particular the callee itself), which stay
unrenamed. -/
theorem c3_rename_substitution_with_callee_exception (n g : JStr)
    (hn1 : startsWithUnderscore n = false)
    (hnF : n ∉ globals.functions)
    (hnC : n ∉ globals.constants)
    (hnM : n ∉ main.functions)
    (hgF : g ∉ globals.functions)
    (hgC : g ∉ globals.constants)
    (hng : n ≠ g)
    (hnq : n ≠ ("q".toList)) :
    transpileAst (.Program
      [.VariableDeclaration ("let".toList)
        [.VariableDeclarator (.Identifier n) (some (.Lit ("10".toList)))],
       .ExpressionStatement (.Identifier n),
       .ExpressionStatement (.AssignmentExpression ("=".toList)
         (.Identifier n) (.Identifier n)),
       .ExpressionStatement (.AssignmentExpression ("=".toList)
         (.Identifier ("q".toList))
         (.ObjectExpression [.Property (.Identifier n) (.Identifier n) false false])),
       .ExpressionStatement (.CallExpression (.Identifier g) [.Identifier n]),
       .ExpressionStatement (.CallExpression (.Identifier n) [.Identifier n])]) =
    some (.Program
      [.VariableDeclaration ("let".toList)
        [.VariableDeclarator (.Identifier ('_' :: n)) (some (.Lit ("10".toList)))],
       .ExpressionStatement (.Identifier ('_' :: n)),
       .ExpressionStatement (.AssignmentExpression ("=".toList)
         (.Identifier ('_' :: n)) (.Identifier ('_' :: n))),
       .ExpressionStatement (.AssignmentExpression ("=".toList)
         (.Identifier ("q".toList))
         (.ObjectExpression [.Property (.Identifier n) (.Identifier ('_' :: n)) false false])),
       .ExpressionStatement (.CallExpression (.Identifier g) [.Identifier ('_' :: n)]),
       .ExpressionStatement (.CallExpression (.Identifier n) [.Identifier n])]) := by
  have hun : n ≠ '_' :: n := by
    intro h
    have := congrArg List.length h
    simp at this
  have hnq2 : n ≠ ['q'] := by simpa using hnq
  simp [transpileAst, transpileGlobalToInstance, walkProgram, walkN, walkL,
    lifecycleDecl, renameDecls, renameOneDecl, identVisitor, assignVisitorSide,
    propVisitor, vmHas, vmGet, getName, isKeyPosition, isLifecycleName, isFnInit,
    hn1, hnF, hnC, hnM, hgF, hgC, hng, hnq, hnq2, hun]

/-- C3 witness: the amended renaming rule at `n = size`, `g = g`. -/
theorem c3_rename_substitution_witness :
    transpileAst (.Program
      [.VariableDeclaration ("let".toList)
        [.VariableDeclarator (.Identifier ("size".toList)) (some (.Lit ("10".toList)))],
       .ExpressionStatement (.Identifier ("size".toList)),
       .ExpressionStatement (.AssignmentExpression ("=".toList)
         (.Identifier ("size".toList)) (.Identifier ("size".toList))),
       .ExpressionStatement (.AssignmentExpression ("=".toList)
         (.Identifier ("q".toList))
         (.ObjectExpression [.Property (.Identifier ("size".toList))
           (.Identifier ("size".toList)) false false])),
       .ExpressionStatement (.CallExpression (.Identifier ("g".toList))
         [.Identifier ("size".toList)]),
       .ExpressionStatement (.CallExpression (.Identifier ("size".toList))
         [.Identifier ("size".toList)])]) =
    some (.Program
      [.VariableDeclaration ("let".toList)
        [.VariableDeclarator (.Identifier ("_size".toList)) (some (.Lit ("10".toList)))],
       .ExpressionStatement (.Identifier ("_size".toList)),
       .ExpressionStatement (.AssignmentExpression ("=".toList)
         (.Identifier ("_size".toList)) (.Identifier ("_size".toList))),
       .ExpressionStatement (.AssignmentExpression ("=".toList)
         (.Identifier ("q".toList))
         (.ObjectExpression [.Property (.Identifier ("size".toList))
           (.Identifier ("_size".toList)) false false])),
       .ExpressionStatement (.CallExpression (.Identifier ("g".toList))
         [.Identifier ("_size".toList)]),
       .ExpressionStatement (.CallExpression (.Identifier ("size".toList))
         [.Identifier ("size".toList)])]) :=
  c3_rename_substitution_with_callee_exception ("size".toList) ("g".toList)
    (by decide) (by decide) (by decide) (by decide) (by decide) (by decide)
    (by decide) (by decide)

/-! ## Claims about the transpiler: lifecycle hoisting (C5) -/

/-- C5: a top-level function declaration named by a recognized lifecycle hook
is rewritten to `_p.<name> = function(params){body}` preserving parameters
and the async/generator flags (the body being the walked body); a
single-declarator `const <hook> = <arrow or function expression>` is
rewritten to the same instance-assignment form, preserving the function
value's parameters and flags; concretely for `function setup(){
createCanvas(200,100); }` and `const setup = () => { createCanvas(100,100);
};`. -/
theorem c5_lifecycle_hoisting :
    (∀ (m : VarMap) (anc : List (Option JStr)) (pp : ParentPos) (name : JStr)
      (params : List Node) (body : Node) (a g : Bool) (b1 : Node) (m3 : VarMap),
      main.functions.contains name = true →
      (∀ p ∈ params, ∃ s, p = Node.Identifier s) →
      walkN m (none :: anc) .otherPos false body = .ok (b1, m3) →
      walkN m anc pp false
          (.FunctionDeclaration (some (.Identifier name)) params body a g) =
        .ok (.AssignmentExpression ("=".toList)
          (.MemberExpression (.Identifier P5_NAMESPACE)
            (.Identifier (vmGet m3 name)) false)
          (.FunctionExpression none params b1 a g), m3)) ∧
    (∀ (m : VarMap) (anc : List (Option JStr)) (pp : ParentPos) (kind name : JStr)
      (params : List Node) (body : Node) (a e : Bool) (b1 : Node) (m2 : VarMap),
      main.functions.contains name = true →
      (∀ p ∈ params, ∃ s, p = Node.Identifier s) →
      walkN m (none :: none :: none :: anc) .otherPos false body = .ok (b1, m2) →
      walkN m anc pp false (.VariableDeclaration kind
          [.VariableDeclarator (.Identifier name)
            (some (.ArrowFunctionExpression params body a e))]) =
        .ok (.ExpressionStatement (.AssignmentExpression ("=".toList)
          (.MemberExpression (.Identifier P5_NAMESPACE) (.Identifier name) false)
          (.ArrowFunctionExpression params b1 a e)), m2)) ∧
    (∀ (m : VarMap) (anc : List (Option JStr)) (pp : ParentPos) (kind name : JStr)
      (params : List Node) (body : Node) (a g : Bool) (b1 : Node) (m2 : VarMap),
      main.functions.contains name = true →
      (∀ p ∈ params, ∃ s, p = Node.Identifier s) →
      walkN m (none :: none :: none :: anc) .otherPos false body = .ok (b1, m2) →
      walkN m anc pp false (.VariableDeclaration kind
          [.VariableDeclarator (.Identifier name)
            (some (.FunctionExpression none params body a g))]) =
        .ok (.ExpressionStatement (.AssignmentExpression ("=".toList)
          (.MemberExpression (.Identifier P5_NAMESPACE) (.Identifier name) false)
          (.FunctionExpression none params b1 a g)), m2)) ∧
    transpileAst (.Program
      [.FunctionDeclaration (some (.Identifier ("setup".toList))) []
        (.BlockStatement [.ExpressionStatement (.CallExpression
          (.Identifier ("createCanvas".toList))
          [.Lit ("200".toList), .Lit ("100".toList)])]) false false]) =
    some (.Program
      [.AssignmentExpression ("=".toList)
        (.MemberExpression (.Identifier ("_p".toList)) (.Identifier ("setup".toList)) false)
        (.FunctionExpression none []
          (.BlockStatement [.ExpressionStatement (.CallExpression
            (.Identifier ("_p.createCanvas".toList))
            [.Lit ("200".toList), .Lit ("100".toList)])]) false false)]) ∧
    transpileAst (.Program
      [.VariableDeclaration ("const".toList)
        [.VariableDeclarator (.Identifier ("setup".toList))
          (some (.ArrowFunctionExpression []
            (.BlockStatement [.ExpressionStatement (.CallExpression
              (.Identifier ("createCanvas".toList))
              [.Lit ("100".toList), .Lit ("100".toList)])]) false false))]]) =
    some (.Program
      [.ExpressionStatement (.AssignmentExpression ("=".toList)
        (.MemberExpression (.Identifier ("_p".toList)) (.Identifier ("setup".toList)) false)
        (.ArrowFunctionExpression []
          (.BlockStatement [.ExpressionStatement (.CallExpression
            (.Identifier ("_p.createCanvas".toList))
            [.Lit ("100".toList), .Lit ("100".toList)])]) false false))]) := by
  refine ⟨?_, ?_, ?_, rfl, rfl⟩
  · intro m anc pp name params body a g b1 m3 hname hp hb
    have hps := walkL_pattern_idents m (none :: anc) .otherPos params hp
    have hnm : name ∈ main.functions := by simpa using hname
    simp [walkN, hps, hb, fdVisitor, hnm]
  · intro m anc pp kind name params body a e b1 m2 hname hp hb
    have hps := walkL_pattern_idents m (none :: none :: none :: anc) .otherPos params hp
    have hnm : name ∈ main.functions := by simpa using hname
    simp [walkN, walkL, hps, hb, lifecycleDecl, isLifecycleName, isFnInit, hnm]
  · intro m anc pp kind name params body a g b1 m2 hname hp hb
    have hps := walkL_pattern_idents m (none :: none :: none :: anc) .otherPos params hp
    have hnm : name ∈ main.functions := by simpa using hname
    simp [walkN, walkL, hps, hb, lifecycleDecl, isLifecycleName, isFnInit, hnm]

/-- C5 witness: both hoisting branches applied at `setup` with a concrete
body. -/
theorem c5_lifecycle_hoisting_witness :
    walkN [] [] .otherPos false
        (.FunctionDeclaration (some (.Identifier ("setup".toList))) []
          (.BlockStatement []) false false) =
      .ok (.AssignmentExpression ("=".toList)
        (.MemberExpression (.Identifier P5_NAMESPACE)
          (.Identifier (vmGet [] ("setup".toList))) false)
        (.FunctionExpression none [] (.BlockStatement []) false false), []) :=
  c5_lifecycle_hoisting.1 [] [] .otherPos ("setup".toList) [] (.BlockStatement [])
    false false (.BlockStatement []) [] (by decide) (by simp) rfl

/-! ## Claims about the transpiler: semantic idempotence (C4)

The spec allows the second transpile to differ byte-for-byte ("not required
to be idempotent byte-for-byte, but must be semantically idempotent"); the
one thing a second walk can still do is drop a `shorthand` flag (it may
expand a shorthand property such as `{ _y }` whose key only collides with a
renamed binding after the first pass), which changes neither identifiers nor
calls.  So idempotence is proved up to shorthand flags: `eraseSh` normalizes
every `shorthand` flag to false and the second transpile is shown to preserve
the tree up to `eraseSh`. -/

mutual

/-- Erase all shorthand flags (the serialization difference the spec's
"semantic idempotence" tolerates). -/
def eraseSh : Node → Node
  | .Identifier s => .Identifier s
  | .Lit r => .Lit r
  | .ObjectPattern => .ObjectPattern
  | .Program b => .Program (eraseShL b)
  | .ExpressionStatement e => .ExpressionStatement (eraseSh e)
  | .BlockStatement b => .BlockStatement (eraseShL b)
  | .VariableDeclaration k d => .VariableDeclaration k (eraseShL d)
  | .VariableDeclarator id none => .VariableDeclarator (eraseSh id) none
  | .VariableDeclarator id (some i) => .VariableDeclarator (eraseSh id) (some (eraseSh i))
  | .AssignmentExpression op l r => .AssignmentExpression op (eraseSh l) (eraseSh r)
  | .CallExpression c a => .CallExpression (eraseSh c) (eraseShL a)
  | .MemberExpression o p comp => .MemberExpression (eraseSh o) (eraseSh p) comp
  | .ObjectExpression ps => .ObjectExpression (eraseShL ps)
  | .Property k v _ comp => .Property (eraseSh k) (eraseSh v) false comp
  | .FunctionDeclaration none ps b a g =>
    .FunctionDeclaration none (eraseShL ps) (eraseSh b) a g
  | .FunctionDeclaration (some i) ps b a g =>
    .FunctionDeclaration (some (eraseSh i)) (eraseShL ps) (eraseSh b) a g
  | .FunctionExpression none ps b a g =>
    .FunctionExpression none (eraseShL ps) (eraseSh b) a g
  | .FunctionExpression (some i) ps b a g =>
    .FunctionExpression (some (eraseSh i)) (eraseShL ps) (eraseSh b) a g
  | .ArrowFunctionExpression ps b a e =>
    .ArrowFunctionExpression (eraseShL ps) (eraseSh b) a e

/-- Erase shorthand flags on a node list. -/
def eraseShL : List Node → List Node
  | [] => []
  | x :: xs => eraseSh x :: eraseShL xs

end

/-- `eraseSh` does not change what `getName` sees. -/
theorem getName_eraseSh (x : Node) : getName (eraseSh x) = getName x := by
  cases x with
  | VariableDeclarator id init => cases init <;> rfl
  | FunctionDeclaration id ps b a g => cases id <;> rfl
  | FunctionExpression id ps b a g => cases id <;> rfl
  | _ => rfl

/-- A node whose `eraseSh` image is an identifier is that identifier. -/
theorem eraseSh_eq_ident {y : Node} {s : JStr} (h : eraseSh y = .Identifier s) :
    y = .Identifier s := by
  cases y with
  | Identifier t => exact h
  | VariableDeclarator id init => cases init <;> simp [eraseSh] at h
  | FunctionDeclaration id ps b a g => cases id <;> simp [eraseSh] at h
  | FunctionExpression id ps b a g => cases id <;> simp [eraseSh] at h
  | _ => simp [eraseSh] at h

/-- Inversion of `eraseShL` against nil. -/
theorem eraseShL_eq_nil {l : List Node} (h : eraseShL l = []) : l = [] := by
  cases l with
  | nil => rfl
  | cons x xs => simp [eraseShL] at h

/-- Inversion of `eraseShL` against cons. -/
theorem eraseShL_eq_cons {l : List Node} {x : Node} {xs : List Node}
    (h : eraseShL l = x :: xs) :
    ∃ y ys, l = y :: ys ∧ eraseSh y = x ∧ eraseShL ys = xs := by
  cases l with
  | nil => simp [eraseShL] at h
  | cons y ys =>
    rw [eraseShL] at h
    exact ⟨y, ys, rfl, (List.cons.injEq _ _ _ _ ▸ h).1, (List.cons.injEq _ _ _ _ ▸ h).2⟩

/-- A node whose `eraseSh` image is a declarator is a declarator of related
parts. -/
theorem eraseSh_eq_declarator {y : Node} {id : Node} {init : Option Node}
    (h : eraseSh y = .VariableDeclarator id init) :
    ∃ id0 init0, y = .VariableDeclarator id0 init0 ∧ eraseSh id0 = id ∧
      Option.map eraseSh init0 = init := by
  cases y with
  | VariableDeclarator id0 init0 =>
    cases init0 with
    | none =>
      rw [eraseSh] at h
      obtain ⟨h1, h2⟩ := (Node.VariableDeclarator.injEq _ _ _ _ ▸ h : _)
      exact ⟨id0, none, rfl, h1, by rw [← h2]; rfl⟩
    | some i0 =>
      rw [eraseSh] at h
      obtain ⟨h1, h2⟩ := (Node.VariableDeclarator.injEq _ _ _ _ ▸ h : _)
      exact ⟨id0, some i0, rfl, h1, by rw [← h2]; rfl⟩
  | Identifier t => simp [eraseSh] at h
  | Lit t => simp [eraseSh] at h
  | ObjectPattern => simp [eraseSh] at h
  | Program b => simp [eraseSh] at h
  | ExpressionStatement e => simp [eraseSh] at h
  | BlockStatement b => simp [eraseSh] at h
  | VariableDeclaration k d => simp [eraseSh] at h
  | AssignmentExpression op l r => simp [eraseSh] at h
  | CallExpression c a => simp [eraseSh] at h
  | MemberExpression o p c => simp [eraseSh] at h
  | ObjectExpression ps => simp [eraseSh] at h
  | Property k v s c => simp [eraseSh] at h
  | FunctionDeclaration id0 ps b a g => cases id0 <;> simp [eraseSh] at h
  | FunctionExpression id0 ps b a g => cases id0 <;> simp [eraseSh] at h
  | ArrowFunctionExpression ps b a e => simp [eraseSh] at h

mutual

/-- Invariant of first-pass outputs, strong enough to make a second walk the
identity up to shorthand flags; the `pat` flag tells whether the node sits in
a pattern position (where an identifier is dispatched without a visitor and
is unconstrained).  In expression position: walked identifiers never carry a
recognized constant name, identifier callees never carry a recognized global
function name, declarator ids are underscore-prefixed identifiers, shorthand
properties with an underscore-prefixed identifier key have the identically
named identifier value, and surviving function declarations are not named by
recognized global/lifecycle functions. -/
def goodN (pat : Bool) : Node → Bool
  | .Identifier name => pat || !(globals.constants.contains name)
  | .Lit _ => true
  | .ObjectPattern => true
  | .Program b => goodNL false b
  | .ExpressionStatement e => goodN false e
  | .BlockStatement b => goodNL false b
  | .VariableDeclaration _ d => goodDeclL d
  | .VariableDeclarator id none => goodN true id
  | .VariableDeclarator id (some i) => goodN true id && goodN false i
  | .AssignmentExpression _ l r => goodN true l && goodN false r
  | .CallExpression c a =>
    goodN false c &&
    (match getName c with
      | some s => !(globals.functions.contains s)
      | none => true) &&
    goodNL false a
  | .MemberExpression o p comp => goodN false o && (!comp || goodN false p)
  | .ObjectExpression ps => goodNL false ps
  | .Property k v sh comp =>
    (!comp || goodN false k) && goodN false v &&
    (!sh ||
      (match k, v with
        | .Identifier kk, .Identifier vv =>
          !(startsWithUnderscore kk) || (vv == kk)
        | _, _ => true))
  | .FunctionDeclaration none ps b _ _ => goodNL true ps && goodN false b
  | .FunctionDeclaration (some i) ps b _ _ =>
    goodN true i &&
    (match i with
      | .Identifier n =>
        !(globals.functions.contains n || main.functions.contains n)
      | _ => true) &&
    goodNL true ps && goodN false b
  | .FunctionExpression none ps b _ _ => goodNL true ps && goodN false b
  | .FunctionExpression (some i) ps b _ _ =>
    goodN true i && goodNL true ps && goodN false b
  | .ArrowFunctionExpression ps b _ _ => goodNL true ps && goodN false b

/-- `goodN` on each element of a list sharing one position kind. -/
def goodNL (pat : Bool) : List Node → Bool
  | [] => true
  | x :: xs => goodN pat x && goodNL pat xs

/-- The invariant of declarator lists in first-pass outputs: every entry is a
declarator with an underscore-prefixed identifier id and a good init. -/
def goodDeclL : List Node → Bool
  | [] => true
  | .VariableDeclarator (.Identifier n) none :: ds =>
    startsWithUnderscore n && goodDeclL ds
  | .VariableDeclarator (.Identifier n) (some i) :: ds =>
    startsWithUnderscore n && goodN false i && goodDeclL ds
  | _ => false

end

mutual

/-- Shorthand well-formedness, true of every tree acorn parses: a shorthand
property's key and value are identically named identifier nodes (acorn
builds the value with `copyNode(prop.key)`). -/
def WFsh : Node → Bool
  | .Identifier _ => true
  | .Lit _ => true
  | .ObjectPattern => true
  | .Program b => WFshL b
  | .ExpressionStatement e => WFsh e
  | .BlockStatement b => WFshL b
  | .VariableDeclaration _ d => WFshL d
  | .VariableDeclarator id none => WFsh id
  | .VariableDeclarator id (some i) => WFsh id && WFsh i
  | .AssignmentExpression _ l r => WFsh l && WFsh r
  | .CallExpression c a => WFsh c && WFshL a
  | .MemberExpression o p _ => WFsh o && WFsh p
  | .ObjectExpression ps => WFshL ps
  | .Property k v sh comp =>
    (!sh ||
      (match k, v with
        | .Identifier kk, .Identifier vv => kk == vv
        | _, _ => false)) &&
    WFsh k && WFsh v
  | .FunctionDeclaration none ps b _ _ => WFshL ps && WFsh b
  | .FunctionDeclaration (some i) ps b _ _ => WFsh i && WFshL ps && WFsh b
  | .FunctionExpression none ps b _ _ => WFshL ps && WFsh b
  | .FunctionExpression (some i) ps b _ _ => WFsh i && WFshL ps && WFsh b
  | .ArrowFunctionExpression ps b _ _ => WFshL ps && WFsh b

/-- Shorthand well-formedness of a node list. -/
def WFshL : List Node → Bool
  | [] => true
  | x :: xs => WFsh x && WFshL xs

end

/-- The varMap invariant during a second pass: every entry maps an
underscore-prefixed name to itself. -/
def UIdMap (m : VarMap) : Prop :=
  ∀ e ∈ m, e.2 = e.1 ∧ startsWithUnderscore e.1 = true

/-- The varMap invariant during a first pass: every stored rename is
underscore-prefixed. -/
def VMap1 (m : VarMap) : Prop := ∀ e ∈ m, startsWithUnderscore e.2 = true

/-- The ancestor invariant during a second pass: no ancestor call has an
identifier callee named by a recognized global function. -/
def AncOk (anc : List (Option JStr)) : Prop :=
  ∀ s, some s ∈ anc → s ∉ globals.functions

/-- None of the modelled recognized global function names starts with an
underscore. -/
theorem F_no_underscore : ∀ x ∈ globals.functions, startsWithUnderscore x = false := by
  decide

/-- None of the modelled recognized constant names starts with an
underscore. -/
theorem C_no_underscore : ∀ x ∈ globals.constants, startsWithUnderscore x = false := by
  decide

/-- None of the modelled lifecycle hook names starts with an underscore. -/
theorem M_no_underscore : ∀ x ∈ main.functions, startsWithUnderscore x = false := by
  decide

/-- An underscore-prefixed name is not a recognized global function name. -/
theorem underscore_notin_F {s : JStr} (h : startsWithUnderscore s = true) :
    globals.functions.contains s = false := by
  cases hc : globals.functions.contains s with
  | false => rfl
  | true =>
    have hm : s ∈ globals.functions := by simpa using hc
    rw [F_no_underscore s hm] at h
    exact absurd h (by simp)

/-- An underscore-prefixed name is not a recognized constant name. -/
theorem underscore_notin_C {s : JStr} (h : startsWithUnderscore s = true) :
    globals.constants.contains s = false := by
  cases hc : globals.constants.contains s with
  | false => rfl
  | true =>
    have hm : s ∈ globals.constants := by simpa using hc
    rw [C_no_underscore s hm] at h
    exact absurd h (by simp)

/-- An underscore-prefixed name is not a recognized lifecycle hook name. -/
theorem underscore_notin_M {s : JStr} (h : startsWithUnderscore s = true) :
    main.functions.contains s = false := by
  cases hc : main.functions.contains s with
  | false => rfl
  | true =>
    have hm : s ∈ main.functions := by simpa using hc
    rw [M_no_underscore s hm] at h
    exact absurd h (by simp)

/-- The instance-qualified rewrite result is underscore-prefixed. -/
theorem underscore_p5 (s : JStr) :
    startsWithUnderscore (P5_NAMESPACE ++ '.' :: s) = true := rfl

/-- Looking up any key in an identity map returns the key. -/
theorem vmGet_UId {m : VarMap} (hm : UIdMap m) (k : JStr) : vmGet m k = k := by
  unfold vmGet
  cases hf : m.find? (fun e => e.1 == k) with
  | none => rfl
  | some e =>
    have he := List.find?_some hf
    have hmem := List.mem_of_find?_eq_some hf
    rw [beq_iff_eq] at he
    show e.2 = k
    rw [(hm e hmem).1, he]

/-- A key present in an identity map is underscore-prefixed. -/
theorem vmHas_UId_underscore {m : VarMap} (hm : UIdMap m) {k : JStr}
    (h : vmHas m k = true) : startsWithUnderscore k = true := by
  unfold vmHas at h
  rw [List.any_eq_true] at h
  obtain ⟨e, hmem, he⟩ := h
  rw [beq_iff_eq] at he
  rw [← he]
  exact (hm e hmem).2

/-- A value looked up under a first-pass map hit is underscore-prefixed. -/
theorem vmGet_VMap1_underscore {m : VarMap} (hm : VMap1 m) {k : JStr}
    (h : vmHas m k = true) : startsWithUnderscore (vmGet m k) = true := by
  unfold vmHas at h
  rw [List.any_eq_true] at h
  obtain ⟨e0, hmem0, he0⟩ := h
  unfold vmGet
  cases hf : m.find? (fun e => e.1 == k) with
  | none =>
    exact absurd (List.find?_eq_none.mp hf e0 hmem0) (by simp [he0])
  | some e => exact hm e (List.mem_of_find?_eq_some hf)

/-- Pushing a non-call ancestor entry keeps the ancestor invariant. -/
theorem ancok_cons_none {anc : List (Option JStr)} (h : AncOk anc) :
    AncOk (none :: anc) := by
  intro s hs
  rcases List.mem_cons.mp hs with h1 | h2
  · exact absurd h1 (by simp)
  · exact h s h2

/-- The empty ancestor list satisfies the invariant. -/
theorem ancok_nil : AncOk [] := by
  intro s hs
  cases hs

/-- Inversion of `goodDeclL` at a cons. -/
theorem goodDeclL_cons {d : Node} {ds : List Node}
    (h : goodDeclL (d :: ds) = true) :
    ∃ n init, d = .VariableDeclarator (.Identifier n) init ∧
      startsWithUnderscore n = true ∧
      (∀ i, init = some i → goodN false i = true) ∧ goodDeclL ds = true := by
  cases d with
  | VariableDeclarator id init =>
    cases id with
    | Identifier n =>
      cases init with
      | none =>
        rw [goodDeclL, Bool.and_eq_true] at h
        exact ⟨n, none, rfl, h.1, by simp, h.2⟩
      | some i =>
        rw [goodDeclL, Bool.and_eq_true, Bool.and_eq_true] at h
        exact ⟨n, some i, rfl, h.1.1, by simpa using h.1.2, h.2⟩
    | Lit t => simp [goodDeclL] at h
    | ObjectPattern => simp [goodDeclL] at h
    | Program b => simp [goodDeclL] at h
    | ExpressionStatement e => simp [goodDeclL] at h
    | BlockStatement b => simp [goodDeclL] at h
    | VariableDeclaration k dd => simp [goodDeclL] at h
    | VariableDeclarator i2 in2 => simp [goodDeclL] at h
    | AssignmentExpression op l r => simp [goodDeclL] at h
    | CallExpression c a => simp [goodDeclL] at h
    | MemberExpression o p c => simp [goodDeclL] at h
    | ObjectExpression ps => simp [goodDeclL] at h
    | Property k v s c => simp [goodDeclL] at h
    | FunctionDeclaration i2 ps b a g => simp [goodDeclL] at h
    | FunctionExpression i2 ps b a g => simp [goodDeclL] at h
    | ArrowFunctionExpression ps b a e => simp [goodDeclL] at h
  | Identifier t => simp [goodDeclL] at h
  | Lit t => simp [goodDeclL] at h
  | ObjectPattern => simp [goodDeclL] at h
  | Program b => simp [goodDeclL] at h
  | ExpressionStatement e => simp [goodDeclL] at h
  | BlockStatement b => simp [goodDeclL] at h
  | VariableDeclaration k dd => simp [goodDeclL] at h
  | AssignmentExpression op l r => simp [goodDeclL] at h
  | CallExpression c a => simp [goodDeclL] at h
  | MemberExpression o p c => simp [goodDeclL] at h
  | ObjectExpression ps => simp [goodDeclL] at h
  | Property k v s c => simp [goodDeclL] at h
  | FunctionDeclaration i2 ps b a g => simp [goodDeclL] at h
  | FunctionExpression i2 ps b a g => simp [goodDeclL] at h
  | ArrowFunctionExpression ps b a e => simp [goodDeclL] at h

/-- A good declarator list is in particular a good expression-position
list. -/
theorem goodDeclL_goodL : ∀ {ds : List Node}, goodDeclL ds = true →
    goodNL false ds = true := by
  intro ds
  induction ds with
  | nil => intro _; rfl
  | cons d ds ih =>
    intro h
    obtain ⟨n, init, hd, hu, hgi, hrest⟩ := goodDeclL_cons h
    subst hd
    cases init with
    | none => simp [goodNL, goodN, ih hrest]
    | some i => simp [goodNL, goodN, hgi i rfl, ih hrest]

/-- A declarator list related by `eraseShL` to a good declarator list keeps
the underscored-identifier shape. -/
theorem declShape : ∀ (d ds1 : List Node), goodDeclL d = true →
    eraseShL ds1 = eraseShL d →
    ∀ x ∈ ds1, ∃ n init, x = .VariableDeclarator (.Identifier n) init ∧
      startsWithUnderscore n = true := by
  intro d
  induction d with
  | nil =>
    intro ds1 _ he x hx
    rw [eraseShL] at he
    rw [eraseShL_eq_nil he] at hx
    exact absurd hx (by simp)
  | cons d0 drest ih =>
    intro ds1 hg he x hx
    obtain ⟨n, init, hd, hu, -, hrest⟩ := goodDeclL_cons hg
    subst hd
    rw [eraseShL] at he
    obtain ⟨y, ys, hds1, hy, hys⟩ := eraseShL_eq_cons he
    subst hds1
    rcases List.mem_cons.mp hx with h1 | h2
    · subst h1
      cases init with
      | none =>
        rw [eraseSh] at hy
        obtain ⟨id0, init0, hx0, hid0, hin0⟩ := eraseSh_eq_declarator hy
        exact ⟨n, init0, by rw [hx0, eraseSh_eq_ident hid0], hu⟩
      | some i =>
        rw [eraseSh] at hy
        obtain ⟨id0, init0, hx0, hid0, hin0⟩ := eraseSh_eq_declarator hy
        exact ⟨n, init0, by rw [hx0, eraseSh_eq_ident hid0], hu⟩
    · exact ih ys hrest hys x h2

/-- No declarator list of underscored identifiers matches the lifecycle
pattern. -/
theorem lifecycleDecl_none_of_underscored : ∀ {ds : List Node},
    (∀ x ∈ ds, ∃ n init, x = .VariableDeclarator (.Identifier n) init ∧
      startsWithUnderscore n = true) →
    lifecycleDecl ds = none := by
  intro ds h
  match ds with
  | [] => rfl
  | [d] =>
    obtain ⟨n, init, hd, hu⟩ := h d (by simp)
    subst hd
    cases init with
    | none => rfl
    | some i =>
      have hF : n ∉ globals.functions := by simpa using underscore_notin_F hu
      have hM : n ∉ main.functions := by simpa using underscore_notin_M hu
      simp [lifecycleDecl, isLifecycleName, hF, hM]
  | d1 :: d2 :: rest =>
    obtain ⟨n1, init1, hd1, hu1⟩ := h d1 (by simp)
    obtain ⟨n2, init2, hd2, hu2⟩ := h d2 (by simp)
    subst hd1
    subst hd2
    cases init1 <;> rfl

/-- Running the declarator-renaming loop over already-renamed declarators
changes nothing and extends the identity map by identity entries. -/
theorem renameDecls_UId : ∀ (ds : List Node) (m : VarMap),
    (∀ d ∈ ds, ∃ n init, d = .VariableDeclarator (.Identifier n) init ∧
      startsWithUnderscore n = true) →
    UIdMap m →
    ∃ m1, renameDecls m ds = .ok (ds, m1) ∧ UIdMap m1 := by
  intro ds
  induction ds with
  | nil => intro m _ hm; exact ⟨m, rfl, hm⟩
  | cons d ds ih =>
    intro m hds hm
    obtain ⟨n, init, hd, hn⟩ := hds d (by simp)
    subst hd
    by_cases hhas : vmHas m n = true
    · have hone : renameOneDecl m (.VariableDeclarator (.Identifier n) init) =
          .ok (.VariableDeclarator (.Identifier n) init, m) := by
        simp [renameOneDecl, getName, hhas, vmGet_UId hm]
      obtain ⟨m1, hrd, hm1⟩ := ih m (fun x hx => hds x (by simp [hx])) hm
      refine ⟨m1, ?_, hm1⟩
      simp [renameDecls, hone, hrd]
    · have hfalse : vmHas m n = false := by simpa using hhas
      have hm2 : UIdMap ((n, n) :: m) := by
        intro e he
        rcases List.mem_cons.mp he with h1 | h2
        · rw [h1]; exact ⟨rfl, hn⟩
        · exact hm e h2
      have hget : vmGet ((n, n) :: m) n = n := vmGet_UId hm2 n
      have hone : renameOneDecl m (.VariableDeclarator (.Identifier n) init) =
          .ok (.VariableDeclarator (.Identifier n) init, (n, n) :: m) := by
        simp [renameOneDecl, getName, hfalse, hn, hget]
      obtain ⟨m1, hrd, hm1⟩ := ih ((n, n) :: m)
        (fun x hx => hds x (by simp [hx])) hm2
      refine ⟨m1, ?_, hm1⟩
      simp [renameDecls, hone, hrd]

/-- In the first pass, the declarator-renaming loop produces underscored
identifier declarators with unchanged inits and keeps the map invariant. -/
theorem renameDecls_good : ∀ (ds : List Node) (m : VarMap) (ds1 : List Node)
    (m1 : VarMap), VMap1 m → goodNL false ds = true →
    renameDecls m ds = .ok (ds1, m1) →
    goodDeclL ds1 = true ∧ VMap1 m1 := by
  intro ds
  induction ds with
  | nil =>
    intro m ds1 m1 hm _ h
    cases h
    exact ⟨rfl, hm⟩
  | cons d ds ih =>
    intro m ds1 m1 hm hg h
    rw [goodNL, Bool.and_eq_true] at hg
    simp only [renameDecls] at h
    split at h
    · exact absurd h (by simp)
    · rename_i d1 m1a hone
      split at h
      · exact absurd h (by simp)
      · rename_i ds2 m2 hds
        cases h
        -- analyze renameOneDecl
        unfold renameOneDecl at hone
        split at hone
        · rename_i id init
          split at hone
          · rename_i varName heq
            rw [getName_eq_some heq] at hg
            cases hone
            -- the new map
            have hm1a : VMap1 (if vmHas m varName then m
                else (varName, if startsWithUnderscore varName then varName
                  else '_' :: varName) :: m) := by
              split
              · exact hm
              · intro e he
                rcases List.mem_cons.mp he with h1 | h2
                · rw [h1]
                  cases hu : startsWithUnderscore varName with
                  | true => simp [hu]
                  | false => simp only [hu, Bool.false_eq_true, if_false]; rfl
                · exact hm e h2
            have hhas2 : vmHas (if vmHas m varName then m
                else (varName, if startsWithUnderscore varName then varName
                  else '_' :: varName) :: m) varName = true := by
              split
              · rename_i hh; exact hh
              · simp [vmHas]
            have hund := vmGet_VMap1_underscore hm1a hhas2
            obtain ⟨hdecl, hrest⟩ := ih _ _ _ hm1a hg.2 hds
            refine ⟨?_, hrest⟩
            cases init with
            | none => simp [goodDeclL, hund, hdecl]
            | some i =>
              have hgi : goodN false i = true := by
                have := hg.1
                rw [goodN, Bool.and_eq_true] at this
                exact this.2
              simp [goodDeclL, hund, hgi, hdecl]
          · exact absurd hone (by simp)
        · exact absurd hone (by simp)

/-- In a second pass (identity map, safe ancestors) the Identifier visitor
leaves a non-constant name unchanged. -/
theorem identVisitor_id {m : VarMap} {anc : List (Option JStr)}
    {pp : ParentPos} {name : JStr} (hm : UIdMap m) (ha : AncOk anc)
    (hC : globals.constants.contains name = false) :
    identVisitor m anc pp name = name := by
  unfold identVisitor
  by_cases hfc : anc.contains (some name) = true
  · have hmem : some name ∈ anc := by simpa using hfc
    have hF : name ∉ globals.functions := ha name hmem
    have hC2 : name ∉ globals.constants := by simpa using hC
    simp [hmem, hF, hC2]
  · have hfc2 : anc.contains (some name) = false := by simpa using hfc
    simp only [hfc2, hC]
    by_cases hhas : vmHas m name = true
    · simp [hhas, vmGet_UId hm]
    · simp [show vmHas m name = false by simpa using hhas]

/-- What the first pass makes of an identifier callee: the result never
carries a recognized global function or constant name. -/
theorem identVisitor_callee {m : VarMap} {anc : List (Option JStr)}
    {s0 : JStr} (hm : VMap1 m) :
    globals.functions.contains
      (identVisitor m (some s0 :: anc) .otherPos s0) = false ∧
    globals.constants.contains
      (identVisitor m (some s0 :: anc) .otherPos s0) = false := by
  have hmem : some s0 ∈ (some s0 :: anc) := by simp
  cases hF0 : globals.functions.contains s0 with
  | true =>
    have hF : s0 ∈ globals.functions := by simpa using hF0
    have hr : identVisitor m (some s0 :: anc) .otherPos s0 =
        P5_NAMESPACE ++ '.' :: s0 := by
      simp [identVisitor, hmem, hF, isKeyPosition]
    rw [hr]
    exact ⟨underscore_notin_F (underscore_p5 s0),
      underscore_notin_C (underscore_p5 s0)⟩
  | false =>
    have hF : s0 ∉ globals.functions := by simpa using hF0
    cases hC0 : globals.constants.contains s0 with
    | true =>
      have hC : s0 ∈ globals.constants := by simpa using hC0
      have hr : identVisitor m (some s0 :: anc) .otherPos s0 =
          P5_NAMESPACE ++ '.' :: s0 := by
        simp [identVisitor, hmem, hF, hC, isKeyPosition]
      rw [hr]
      exact ⟨underscore_notin_F (underscore_p5 s0),
        underscore_notin_C (underscore_p5 s0)⟩
    | false =>
      have hC : s0 ∉ globals.constants := by simpa using hC0
      have hr : identVisitor m (some s0 :: anc) .otherPos s0 = s0 := by
        simp [identVisitor, hmem, hF, hC, isKeyPosition]
      rw [hr]
      exact ⟨hF0, hC0⟩

/-- In the first pass the Identifier visitor never returns a recognized
constant name when the node is not in key position. -/
theorem identVisitor_notin_C {m : VarMap} {anc : List (Option JStr)}
    {pp : ParentPos} {name : JStr} (hm : VMap1 m)
    (hpp : isKeyPosition pp = false) :
    globals.constants.contains (identVisitor m anc pp name) = false := by
  unfold identVisitor
  simp only [hpp, Bool.not_false, Bool.true_and, Bool.and_true]
  by_cases h1 : ((anc.contains (some name) && globals.functions.contains name)
      || globals.constants.contains name) = true
  · rw [if_pos h1]
    exact underscore_notin_C (underscore_p5 name)
  · rw [if_neg h1]
    have hC : globals.constants.contains name = false := by
      cases hc : globals.constants.contains name with
      | false => rfl
      | true => exact absurd (by rw [hc, Bool.or_true]) h1
    by_cases h2 : (!(anc.contains (some name)) && vmHas m name) = true
    · rw [if_pos h2]
      rw [Bool.and_eq_true] at h2
      exact underscore_notin_C (vmGet_VMap1_underscore hm h2.2)
    · rw [if_neg h2]
      exact hC

/-- An underscore-prefixed name missing from the map passes through the
Identifier visitor unchanged. -/
theorem identVisitor_underscore_nohit {m : VarMap} {anc : List (Option JStr)}
    {pp : ParentPos} {t : JStr} (hu : startsWithUnderscore t = true)
    (hh : vmHas m t = false) : identVisitor m anc pp t = t := by
  have hF : t ∉ globals.functions := by simpa using underscore_notin_F hu
  have hC : t ∉ globals.constants := by simpa using underscore_notin_C hu
  unfold identVisitor
  simp [hF, hC, hh]

/-- Under an identity map the assignment visitor changes nothing. -/
theorem assignVisitorSide_UId {m : VarMap} (hm : UIdMap m) (x : Node) :
    assignVisitorSide m x = x := by
  unfold assignVisitorSide
  split
  · split
    · rw [vmGet_UId hm]
    · rfl
  · rfl

/-- The FunctionDeclaration visitor leaves a declaration with a non-identifier
id alone. -/
theorem fdVisitor_nonident {m : VarMap} {i1 : Node} {ps1 : List Node}
    {b1 : Node} {a g : Bool} (h : getName i1 = none) :
    fdVisitor m (some i1) ps1 b1 a g =
      .FunctionDeclaration (some i1) ps1 b1 a g := by
  cases i1 <;> first | rfl | simp [getName] at h

/-- Under an identity map the Property visitor can only drop a shorthand
flag: its result erases to the erased parts. -/
theorem propVisitor_eraseSh {m : VarMap} (hm : UIdMap m) {k v k1 v1 : Node}
    {sh comp : Bool}
    (hsh : (!sh ||
      (match k, v with
        | .Identifier kk, .Identifier vv =>
          !(startsWithUnderscore kk) || (vv == kk)
        | _, _ => true)) = true)
    (hek : eraseSh k1 = eraseSh k)
    (hev : eraseSh v1 = eraseSh v) :
    eraseSh (propVisitor m k1 v1 sh comp) =
      .Property (eraseSh k) (eraseSh v) false comp := by
  unfold propVisitor
  split
  · rename_i kk vv
    have hk2 : k = .Identifier kk := by
      apply eraseSh_eq_ident
      rw [← hek]
      rfl
    have hv2 : v = .Identifier vv := by
      apply eraseSh_eq_ident
      rw [← hev]
      rfl
    subst hk2
    subst hv2
    split
    · rename_i hcond
      rw [Bool.and_eq_true] at hcond
      have hu := vmHas_UId_underscore hm hcond.2
      have hvv : vv = kk := by
        rw [hcond.1] at hsh
        simpa [hu] using hsh
      rw [vmGet_UId hm]
      simp [eraseSh, hvv]
    · simp [eraseSh]
  · simp [eraseSh, hek, hev]

/-- A second traversal is the identity up to shorthand flags: on trees
satisfying the first-pass invariant, run with an identity map and ancestors
free of recognized-function callees, the walk succeeds, returns a tree with
the same erasure, and keeps the map an identity map. -/
theorem walkPass2 :
    (∀ n, ∀ m anc pp pat, UIdMap m → AncOk anc → goodN pat n = true →
      ∃ n1 m1, walkN m anc pp pat n = .ok (n1, m1) ∧
        eraseSh n1 = eraseSh n ∧ UIdMap m1) ∧
    (∀ l, ∀ m anc pp pat, UIdMap m → AncOk anc → goodNL pat l = true →
      ∃ l1 m1, walkL m anc pp pat l = .ok (l1, m1) ∧
        eraseShL l1 = eraseShL l ∧ UIdMap m1) := by
  refine nodeMutualInd
    (fun n => ∀ m anc pp pat, UIdMap m → AncOk anc → goodN pat n = true →
      ∃ n1 m1, walkN m anc pp pat n = .ok (n1, m1) ∧
        eraseSh n1 = eraseSh n ∧ UIdMap m1)
    (fun l => ∀ m anc pp pat, UIdMap m → AncOk anc → goodNL pat l = true →
      ∃ l1 m1, walkL m anc pp pat l = .ok (l1, m1) ∧
        eraseShL l1 = eraseShL l ∧ UIdMap m1)
    ?_ ?_ ?_ ?_ ?_ ?_ ?_ ?_ ?_ ?_ ?_ ?_ ?_ ?_ ?_ ?_ ?_ ?_ ?_ ?_ ?_
  · intro s m anc pp pat hm ha hg
    cases pat with
    | true => exact ⟨.Identifier s, m, by simp [walkN], rfl, hm⟩
    | false =>
      have hC : globals.constants.contains s = false := by
        simp only [goodN] at hg
        simpa using hg
      refine ⟨.Identifier s, m, ?_, rfl, hm⟩
      simp [walkN, identVisitor_id hm ha hC]
  · intro r m anc pp pat hm ha hg
    exact ⟨.Lit r, m, by simp [walkN], rfl, hm⟩
  · intro m anc pp pat hm ha hg
    exact ⟨.ObjectPattern, m, by simp [walkN], rfl, hm⟩
  · intro b ih m anc pp pat hm ha hg
    simp only [goodN] at hg
    obtain ⟨b1, m1, hw, he, hm1⟩ := ih m (none :: anc) .otherPos false hm
      (ancok_cons_none ha) hg
    exact ⟨.Program b1, m1, by simp [walkN, hw], by simp [eraseSh, he], hm1⟩
  · intro e ih m anc pp pat hm ha hg
    simp only [goodN] at hg
    obtain ⟨e1, m1, hw, he, hm1⟩ := ih m (none :: anc) .otherPos false hm
      (ancok_cons_none ha) hg
    exact ⟨.ExpressionStatement e1, m1, by simp [walkN, hw],
      by simp [eraseSh, he], hm1⟩
  · intro b ih m anc pp pat hm ha hg
    simp only [goodN] at hg
    obtain ⟨b1, m1, hw, he, hm1⟩ := ih m (none :: anc) .otherPos false hm
      (ancok_cons_none ha) hg
    exact ⟨.BlockStatement b1, m1, by simp [walkN, hw],
      by simp [eraseSh, he], hm1⟩
  · intro k d ih m anc pp pat hm ha hg
    simp only [goodN] at hg
    obtain ⟨ds1, m1, hw, he, hm1⟩ := ih m (none :: anc) .otherPos false hm
      (ancok_cons_none ha) (goodDeclL_goodL hg)
    have hshape := declShape d ds1 hg he
    have hlc : lifecycleDecl ds1 = none := lifecycleDecl_none_of_underscored hshape
    obtain ⟨m2, hrd, hm2⟩ := renameDecls_UId ds1 m1 hshape hm1
    refine ⟨.VariableDeclaration k ds1, m2, ?_, by simp [eraseSh, he], hm2⟩
    simp [walkN, hw, hlc, hrd]
  · intro id ihid m anc pp pat hm ha hg
    simp only [goodN] at hg
    obtain ⟨id1, m1, hw, he, hm1⟩ := ihid m (none :: anc) .otherPos true hm
      (ancok_cons_none ha) hg
    exact ⟨.VariableDeclarator id1 none, m1, by simp [walkN, hw],
      by simp [eraseSh, he], hm1⟩
  · intro id i ihid ihi m anc pp pat hm ha hg
    simp only [goodN, Bool.and_eq_true] at hg
    obtain ⟨id1, m1, hw1, he1, hm1⟩ := ihid m (none :: anc) .otherPos true hm
      (ancok_cons_none ha) hg.1
    obtain ⟨i1, m2, hw2, he2, hm2⟩ := ihi m1 (none :: anc) .otherPos false hm1
      (ancok_cons_none ha) hg.2
    exact ⟨.VariableDeclarator id1 (some i1), m2, by simp [walkN, hw1, hw2],
      by simp [eraseSh, he1, he2], hm2⟩
  · intro op l r ihl ihr m anc pp pat hm ha hg
    simp only [goodN, Bool.and_eq_true] at hg
    obtain ⟨l1, m1, hw1, he1, hm1⟩ := ihl m (none :: anc) .otherPos true hm
      (ancok_cons_none ha) hg.1
    obtain ⟨r1, m2, hw2, he2, hm2⟩ := ihr m1 (none :: anc) .otherPos false hm1
      (ancok_cons_none ha) hg.2
    refine ⟨.AssignmentExpression op (assignVisitorSide m2 l1)
      (assignVisitorSide m2 r1), m2, by simp [walkN, hw1, hw2], ?_, hm2⟩
    rw [assignVisitorSide_UId hm2, assignVisitorSide_UId hm2]
    simp [eraseSh, he1, he2]
  · intro c a ihc iha m anc pp pat hm ha hg
    simp only [goodN, Bool.and_eq_true] at hg
    obtain ⟨⟨hgc, hcal⟩, hga⟩ := hg
    have hanc1 : AncOk (getName c :: anc) := by
      intro s hs
      rcases List.mem_cons.mp hs with h1 | h2
      · rw [← h1] at hcal
        have hcal2 : (!(globals.functions.contains s)) = true := hcal
        simpa using hcal2
      · exact ha s h2
    obtain ⟨c1, m1, hwc, hec, hm1⟩ := ihc m (getName c :: anc) .otherPos false
      hm hanc1 hgc
    have hgn : getName c1 = getName c := by
      rw [← getName_eraseSh c1, hec, getName_eraseSh]
    obtain ⟨a1, m2, hwa, hea, hm2⟩ := iha m1 (getName c1 :: anc) .otherPos false
      hm1 (by rw [hgn]; exact hanc1) hga
    exact ⟨.CallExpression c1 a1, m2, by simp [walkN, hwc, hwa],
      by simp [eraseSh, hec, hea], hm2⟩
  · intro o p comp iho ihp m anc pp pat hm ha hg
    simp only [goodN, Bool.and_eq_true] at hg
    obtain ⟨hgo, hgp⟩ := hg
    obtain ⟨o1, m1, hwo, heo, hm1⟩ := iho m (none :: anc) .otherPos false hm
      (ancok_cons_none ha) hgo
    cases comp with
    | false =>
      exact ⟨.MemberExpression o1 p false, m1, by simp [walkN, hwo],
        by simp [eraseSh, heo], hm1⟩
    | true =>
      have hgp2 : goodN false p = true := by simpa using hgp
      obtain ⟨p1, m2, hwp, hep, hm2⟩ := ihp m1 (none :: anc)
        (.memberProperty true) false hm1 (ancok_cons_none ha) hgp2
      exact ⟨.MemberExpression o1 p1 true, m2, by simp [walkN, hwo, hwp],
        by simp [eraseSh, heo, hep], hm2⟩
  · intro ps ih m anc pp pat hm ha hg
    simp only [goodN] at hg
    obtain ⟨ps1, m1, hw, he, hm1⟩ := ih m (none :: anc) .otherPos false hm
      (ancok_cons_none ha) hg
    exact ⟨.ObjectExpression ps1, m1, by simp [walkN, hw],
      by simp [eraseSh, he], hm1⟩
  · intro k v sh comp ihk ihv m anc pp pat hm ha hg
    simp only [goodN, Bool.and_eq_true] at hg
    obtain ⟨⟨hgk, hgv⟩, hsh⟩ := hg
    cases comp with
    | false =>
      obtain ⟨v1, m2, hwv, hev, hm2⟩ := ihv m (none :: anc) .propertyValue false
        hm (ancok_cons_none ha) hgv
      refine ⟨propVisitor m2 k v1 sh false, m2, by simp [walkN, hwv], ?_, hm2⟩
      rw [propVisitor_eraseSh hm2 hsh rfl hev]
      simp [eraseSh]
    | true =>
      have hgk2 : goodN false k = true := by simpa using hgk
      obtain ⟨k1, m1, hwk, hek, hm1⟩ := ihk m (none :: anc) (.propertyKey true)
        false hm (ancok_cons_none ha) hgk2
      obtain ⟨v1, m2, hwv, hev, hm2⟩ := ihv m1 (none :: anc) .propertyValue
        false hm1 (ancok_cons_none ha) hgv
      refine ⟨propVisitor m2 k1 v1 sh true, m2, by simp [walkN, hwk, hwv], ?_, hm2⟩
      rw [propVisitor_eraseSh hm2 hsh hek hev]
      simp [eraseSh]
  · intro ps b a g ihps ihb m anc pp pat hm ha hg
    simp only [goodN, Bool.and_eq_true] at hg
    obtain ⟨ps1, m2, hwps, heps, hm2⟩ := ihps m (none :: anc) .otherPos true hm
      (ancok_cons_none ha) hg.1
    obtain ⟨b1, m3, hwb, heb, hm3⟩ := ihb m2 (none :: anc) .otherPos false hm2
      (ancok_cons_none ha) hg.2
    refine ⟨.FunctionDeclaration none ps1 b1 a g, m3, ?_,
      by simp [eraseSh, heps, heb], hm3⟩
    simp [walkN, hwps, hwb, fdVisitor]
  · intro i ps b a g ihi ihps ihb m anc pp pat hm ha hg
    simp only [goodN, Bool.and_eq_true] at hg
    obtain ⟨⟨⟨hgi, hname⟩, hgps⟩, hgb⟩ := hg
    obtain ⟨i1, m1, hwi, hei, hm1⟩ := ihi m (none :: anc) .otherPos true hm
      (ancok_cons_none ha) hgi
    obtain ⟨ps1, m2, hwps, heps, hm2⟩ := ihps m1 (none :: anc) .otherPos true
      hm1 (ancok_cons_none ha) hgps
    obtain ⟨b1, m3, hwb, heb, hm3⟩ := ihb m2 (none :: anc) .otherPos false hm2
      (ancok_cons_none ha) hgb
    cases hn : getName i1 with
    | none =>
      refine ⟨.FunctionDeclaration (some i1) ps1 b1 a g, m3, ?_,
        by simp [eraseSh, hei, heps, heb], hm3⟩
      simp [walkN, hwi, hwps, hwb, fdVisitor_nonident hn]
    | some nm =>
      have hi1 : i1 = .Identifier nm := getName_eq_some hn
      have hi : i = .Identifier nm := by
        apply eraseSh_eq_ident
        rw [← hei, hi1]
        rfl
      rw [hi] at hname
      have hname2 : (!(globals.functions.contains nm
        || main.functions.contains nm)) = true := hname
      have hname3 : nm ∉ globals.functions ∧ nm ∉ main.functions := by
        simpa using hname2
      have hfd : fdVisitor m3 (some i1) ps1 b1 a g =
          .FunctionDeclaration (some i1) ps1 b1 a g := by
        rw [hi1]
        simp [fdVisitor, hname3.1, hname3.2]
      refine ⟨.FunctionDeclaration (some i1) ps1 b1 a g, m3, ?_,
        by simp [eraseSh, hei, heps, heb], hm3⟩
      simp [walkN, hwi, hwps, hwb, hfd]
  · intro ps b a g ihps ihb m anc pp pat hm ha hg
    simp only [goodN, Bool.and_eq_true] at hg
    obtain ⟨ps1, m2, hwps, heps, hm2⟩ := ihps m (none :: anc) .otherPos true hm
      (ancok_cons_none ha) hg.1
    obtain ⟨b1, m3, hwb, heb, hm3⟩ := ihb m2 (none :: anc) .otherPos false hm2
      (ancok_cons_none ha) hg.2
    exact ⟨.FunctionExpression none ps1 b1 a g, m3, by simp [walkN, hwps, hwb],
      by simp [eraseSh, heps, heb], hm3⟩
  · intro i ps b a g ihi ihps ihb m anc pp pat hm ha hg
    simp only [goodN, Bool.and_eq_true] at hg
    obtain ⟨⟨hgi, hgps⟩, hgb⟩ := hg
    obtain ⟨i1, m1, hwi, hei, hm1⟩ := ihi m (none :: anc) .otherPos true hm
      (ancok_cons_none ha) hgi
    obtain ⟨ps1, m2, hwps, heps, hm2⟩ := ihps m1 (none :: anc) .otherPos true
      hm1 (ancok_cons_none ha) hgps
    obtain ⟨b1, m3, hwb, heb, hm3⟩ := ihb m2 (none :: anc) .otherPos false hm2
      (ancok_cons_none ha) hgb
    exact ⟨.FunctionExpression (some i1) ps1 b1 a g, m3,
      by simp [walkN, hwi, hwps, hwb], by simp [eraseSh, hei, heps, heb], hm3⟩
  · intro ps b a e ihps ihb m anc pp pat hm ha hg
    simp only [goodN, Bool.and_eq_true] at hg
    obtain ⟨ps1, m1, hwps, heps, hm1⟩ := ihps m (none :: anc) .otherPos true hm
      (ancok_cons_none ha) hg.1
    obtain ⟨b1, m2, hwb, heb, hm2⟩ := ihb m1 (none :: anc) .otherPos false hm1
      (ancok_cons_none ha) hg.2
    exact ⟨.ArrowFunctionExpression ps1 b1 a e, m2, by simp [walkN, hwps, hwb],
      by simp [eraseSh, heps, heb], hm2⟩
  · intro m anc pp pat hm ha hg
    exact ⟨[], m, by simp [walkL], rfl, hm⟩
  · intro x xs ihx ihxs m anc pp pat hm ha hg
    simp only [goodNL, Bool.and_eq_true] at hg
    obtain ⟨x1, m1, hwx, hex, hm1⟩ := ihx m anc pp pat hm ha hg.1
    obtain ⟨xs1, m2, hwxs, hexs, hm2⟩ := ihxs m1 anc pp pat hm1 ha hg.2
    exact ⟨x1 :: xs1, m2, by simp [walkL, hwx, hwxs],
      by simp [eraseShL, hex, hexs], hm2⟩

/-- The identity map invariant holds of the empty map. -/
theorem uidmap_nil : UIdMap ([] : VarMap) := by
  intro e he
  cases he

/-- The first-pass map invariant holds of the empty map. -/
theorem vmap1_nil : VMap1 ([] : VarMap) := by
  intro e he
  cases he

/-- The Identifier visitor reads its parent position only through
`isKeyPosition`. -/
theorem identVisitor_pp {m : VarMap} {anc : List (Option JStr)}
    {pp1 pp2 : ParentPos} (h : isKeyPosition pp1 = isKeyPosition pp2)
    (name : JStr) :
    identVisitor m anc pp1 name = identVisitor m anc pp2 name := by
  unfold identVisitor
  rw [h]

/-- The Property visitor always produces a Property node. -/
theorem getName_propVisitor (m : VarMap) (k v : Node) (sh c : Bool) :
    getName (propVisitor m k v sh c) = none := by
  unfold propVisitor
  split
  · split <;> rfl
  · rfl

/-- The assignment visitor keeps pattern-position goodness. -/
theorem goodN_avs_true {m : VarMap} {x : Node} (h : goodN true x = true) :
    goodN true (assignVisitorSide m x) = true := by
  unfold assignVisitorSide
  split
  · split <;> simp [goodN]
  · exact h

/-- The assignment visitor keeps expression-position goodness when the map
only stores underscore-prefixed renames. -/
theorem goodN_avs_false {m : VarMap} (hm : VMap1 m) {x : Node}
    (h : goodN false x = true) :
    goodN false (assignVisitorSide m x) = true := by
  unfold assignVisitorSide
  split
  · rename_i n
    by_cases hh : vmHas m n = true
    · rw [if_pos hh]
      have hC2 : vmGet m n ∉ globals.constants := by
        simpa using underscore_notin_C (vmGet_VMap1_underscore hm hh)
      simp [goodN, hC2]
    · rw [if_neg hh]
      exact h
  · exact h

/-- The shorthand side condition of `goodN` on a Property holds whenever it
holds of every identifier instantiation. -/
theorem shMatch_true {k1 v1 : Node}
    (h : ∀ kk vv, k1 = .Identifier kk → v1 = .Identifier vv →
      (!(startsWithUnderscore kk) || (vv == kk)) = true) :
    (match k1, v1 with
      | .Identifier kk, .Identifier vv => !(startsWithUnderscore kk) || (vv == kk)
      | _, _ => true) = true := by
  cases k1 <;> cases v1 <;> first | rfl | exact h _ _ rfl rfl

/-- Goodness of the Property visitor's output, from goodness of the walked
parts and the shorthand side condition for the identifier case. -/
theorem goodN_propVisitor {m : VarMap} (hm : VMap1 m) {k1 v1 : Node}
    {sh comp pat : Bool}
    (hk : (!comp || goodN false k1) = true)
    (hv : goodN false v1 = true)
    (hcase : ∀ kk vv, sh = true → k1 = .Identifier kk → v1 = .Identifier vv →
      vmHas m kk = false → (!(startsWithUnderscore kk) || (vv == kk)) = true) :
    goodN pat (propVisitor m k1 v1 sh comp) = true := by
  unfold propVisitor
  split
  · rename_i kk vv
    by_cases hc : (sh && vmHas m kk) = true
    · rw [if_pos hc]
      rw [Bool.and_eq_true] at hc
      have hu := vmGet_VMap1_underscore hm hc.2
      have hC : vmGet m kk ∉ globals.constants := by
        simpa using underscore_notin_C hu
      simp only [goodN, Bool.and_eq_true]
      exact ⟨⟨by simpa [goodN] using hk, by simp [hC]⟩, by simp⟩
    · rw [if_neg hc]
      simp only [goodN, Bool.and_eq_true]
      refine ⟨⟨by simpa [goodN] using hk, by simpa [goodN] using hv⟩, ?_⟩
      cases hs : sh with
      | false => simp
      | true =>
        have hh : vmHas m kk = false := by
          cases hh2 : vmHas m kk with
          | false => rfl
          | true => exact absurd (by simp [hs, hh2]) hc
        simpa using hcase kk vv hs rfl rfl hh
  · rename_i hnp
    simp only [goodN, Bool.and_eq_true]
    refine ⟨⟨hk, hv⟩, ?_⟩
    cases hs : sh with
    | false => simp
    | true =>
      simpa using shMatch_true (fun kk vv h1 h2 => (hnp kk vv h1 h2).elim)

/-- The recognized constants do not contain the instance namespace name. -/
theorem p5_notin_C : globals.constants.contains P5_NAMESPACE = false := rfl

/-- Goodness of the FunctionDeclaration visitor's output on a present id,
from goodness of the walked parts. -/
theorem goodN_fdVisitor_some {m : VarMap} (hm : VMap1 m) {i1 : Node}
    {ps1 : List Node} {b1 : Node} {a g pat : Bool}
    (hgi : goodN true i1 = true) (hgps : goodNL true ps1 = true)
    (hgb : goodN false b1 = true) :
    goodN pat (fdVisitor m (some i1) ps1 b1 a g) = true := by
  unfold fdVisitor
  split
  · rename_i name heq
    rw [Option.some.injEq] at heq
    subst heq
    by_cases hcond : (globals.functions.contains name
        || main.functions.contains name) = true
    · rw [if_pos hcond]
      have hC2 : P5_NAMESPACE ∉ globals.constants := by decide
      simp only [goodN, Bool.and_eq_true]
      constructor
      · simp [goodN, hC2]
      · simp [goodN, hgps, hgb]
    · rw [if_neg hcond]
      have hcond2 : (globals.functions.contains name
          || main.functions.contains name) = false := by
        cases hb : (globals.functions.contains name
            || main.functions.contains name) with
        | false => rfl
        | true => exact absurd hb hcond
      have hc3 : name ∉ globals.functions ∧ name ∉ main.functions := by
        simpa using hcond2
      simp only [goodN, Bool.and_eq_true]
      exact ⟨⟨⟨by simp, by simp [hc3.1, hc3.2]⟩, hgps⟩, hgb⟩
  · rename_i hnp
    simp only [goodN, Bool.and_eq_true]
    refine ⟨⟨⟨hgi, ?_⟩, hgps⟩, hgb⟩
    cases i1 with
    | Identifier s => exact (hnp s rfl).elim
    | _ => rfl

/-- Inversion of the acorn shorthand invariant: key and value are
identically named identifiers. -/
theorem wfsh_shorthand {k v : Node}
    (h : (match k, v with
      | .Identifier kk, .Identifier vv => kk == vv
      | _, _ => false) = true) :
    ∃ t, k = .Identifier t ∧ v = .Identifier t := by
  cases k
  case Identifier t1 =>
    cases v
    case Identifier t2 =>
      have ht : t1 = t2 := by simpa using h
      exact ⟨t1, rfl, by rw [ht]⟩
    all_goals simp at h
  all_goals cases v <;> simp at h

/-- The shorthand invariant specialized to a shorthand property. -/
theorem wfsh_sh_inv {k v : Node} {sh : Bool} (hs : sh = true)
    (h : (!sh || (match k, v with
      | .Identifier kk, .Identifier vv => kk == vv
      | _, _ => false)) = true) :
    ∃ t, k = .Identifier t ∧ v = .Identifier t := by
  subst hs
  simp only [Bool.not_true, Bool.false_or] at h
  exact wfsh_shorthand h

/-- The FunctionDeclaration visitor never produces an identifier. -/
theorem getName_fdVisitor (m : VarMap) (id1 : Option Node) (ps1 : List Node)
    (b1 : Node) (a g : Bool) : getName (fdVisitor m id1 ps1 b1 a g) = none := by
  unfold fdVisitor
  split
  · split <;> rfl
  · rfl

/-- The first pass establishes the invariant: on any shorthand-well-formed
tree, whenever the walk succeeds it returns a tree satisfying `goodN`, keeps
every stored rename underscore-prefixed, and never turns a non-identifier
into an identifier. -/
theorem walkPass1 :
    (∀ n, ∀ m anc pp pat, VMap1 m → isKeyPosition pp = false →
      WFsh n = true → ∀ n1 m1, walkN m anc pp pat n = .ok (n1, m1) →
        goodN pat n1 = true ∧ VMap1 m1 ∧
          (getName n = none → getName n1 = none)) ∧
    (∀ l, ∀ m anc pp pat, VMap1 m → isKeyPosition pp = false →
      WFshL l = true → ∀ l1 m1, walkL m anc pp pat l = .ok (l1, m1) →
        goodNL pat l1 = true ∧ VMap1 m1) := by
  refine nodeMutualInd
    (fun n => ∀ m anc pp pat, VMap1 m → isKeyPosition pp = false →
      WFsh n = true → ∀ n1 m1, walkN m anc pp pat n = .ok (n1, m1) →
        goodN pat n1 = true ∧ VMap1 m1 ∧
          (getName n = none → getName n1 = none))
    (fun l => ∀ m anc pp pat, VMap1 m → isKeyPosition pp = false →
      WFshL l = true → ∀ l1 m1, walkL m anc pp pat l = .ok (l1, m1) →
        goodNL pat l1 = true ∧ VMap1 m1)
    ?_ ?_ ?_ ?_ ?_ ?_ ?_ ?_ ?_ ?_ ?_ ?_ ?_ ?_ ?_ ?_ ?_ ?_ ?_ ?_ ?_
  · intro s m anc pp pat hm hpp hwf n1 m1 hw
    cases pat with
    | true =>
      simp [walkN] at hw
      obtain ⟨rfl, rfl⟩ := hw
      exact ⟨by simp [goodN], hm, fun h => by simp [getName] at h⟩
    | false =>
      simp [walkN] at hw
      obtain ⟨rfl, rfl⟩ := hw
      refine ⟨?_, hm, fun h => by simp [getName] at h⟩
      have hC : identVisitor m anc pp s ∉ globals.constants := by
        simpa using identVisitor_notin_C hm hpp
      simp [goodN, hC]
  · intro r m anc pp pat hm hpp hwf n1 m1 hw
    simp [walkN] at hw
    obtain ⟨rfl, rfl⟩ := hw
    exact ⟨by simp [goodN], hm, fun _ => rfl⟩
  · intro m anc pp pat hm hpp hwf n1 m1 hw
    simp [walkN] at hw
    obtain ⟨rfl, rfl⟩ := hw
    exact ⟨by simp [goodN], hm, fun _ => rfl⟩
  · intro b ih m anc pp pat hm hpp hwf n1 m1 hw
    simp only [WFsh] at hwf
    simp [walkN] at hw
    cases hww : walkL m (none :: anc) .otherPos false b with
    | error e => rw [hww] at hw; simp at hw
    | ok pr =>
      obtain ⟨b2, m2⟩ := pr
      rw [hww] at hw
      simp at hw
      obtain ⟨rfl, rfl⟩ := hw
      obtain ⟨hg2, hm2⟩ := ih m (none :: anc) .otherPos false hm rfl hwf b2 m2 hww
      exact ⟨by simp [goodN, hg2], hm2, fun _ => rfl⟩
  · intro e ih m anc pp pat hm hpp hwf n1 m1 hw
    simp only [WFsh] at hwf
    simp [walkN] at hw
    cases hww : walkN m (none :: anc) .otherPos false e with
    | error er => rw [hww] at hw; simp at hw
    | ok pr =>
      obtain ⟨e2, m2⟩ := pr
      rw [hww] at hw
      simp at hw
      obtain ⟨rfl, rfl⟩ := hw
      obtain ⟨hg2, hm2, _⟩ := ih m (none :: anc) .otherPos false hm rfl hwf e2 m2 hww
      exact ⟨by simp [goodN, hg2], hm2, fun _ => rfl⟩
  · intro b ih m anc pp pat hm hpp hwf n1 m1 hw
    simp only [WFsh] at hwf
    simp [walkN] at hw
    cases hww : walkL m (none :: anc) .otherPos false b with
    | error e => rw [hww] at hw; simp at hw
    | ok pr =>
      obtain ⟨b2, m2⟩ := pr
      rw [hww] at hw
      simp at hw
      obtain ⟨rfl, rfl⟩ := hw
      obtain ⟨hg2, hm2⟩ := ih m (none :: anc) .otherPos false hm rfl hwf b2 m2 hww
      exact ⟨by simp [goodN, hg2], hm2, fun _ => rfl⟩
  · intro k d ih m anc pp pat hm hpp hwf n1 m1 hw
    simp only [WFsh] at hwf
    simp [walkN] at hw
    cases hww : walkL m (none :: anc) .otherPos false d with
    | error e => rw [hww] at hw; simp at hw
    | ok pr =>
      obtain ⟨ds, m2⟩ := pr
      rw [hww] at hw
      simp only [] at hw
      obtain ⟨hgds, hm2⟩ := ih m (none :: anc) .otherPos false hm rfl hwf ds m2 hww
      cases hlc : lifecycleDecl ds with
      | some pr2 =>
        obtain ⟨name, init⟩ := pr2
        rw [hlc] at hw
        simp at hw
        obtain ⟨rfl, rfl⟩ := hw
        obtain ⟨hds, hln, hfi⟩ := lifecycleDecl_inv hlc
        rw [hds] at hgds
        have hinit : goodN false init = true := by
          simp [goodNL, goodN] at hgds
          exact hgds
        have hC2 : P5_NAMESPACE ∉ globals.constants := by decide
        exact ⟨by simp [goodN, hC2, hinit], hm2, fun _ => rfl⟩
      | none =>
        rw [hlc] at hw
        simp only [] at hw
        cases hrd : renameDecls m2 ds with
        | error e => rw [hrd] at hw; simp at hw
        | ok pr2 =>
          obtain ⟨ds1, m3⟩ := pr2
          rw [hrd] at hw
          simp at hw
          obtain ⟨rfl, rfl⟩ := hw
          obtain ⟨hgood, hm3⟩ := renameDecls_good ds m2 ds1 m3 hm2 hgds hrd
          exact ⟨by simp [goodN, hgood], hm3, fun _ => rfl⟩
  · intro id ihid m anc pp pat hm hpp hwf n1 m1 hw
    simp only [WFsh] at hwf
    simp [walkN] at hw
    cases hww : walkN m (none :: anc) .otherPos true id with
    | error e => rw [hww] at hw; simp at hw
    | ok pr =>
      obtain ⟨id2, m2⟩ := pr
      rw [hww] at hw
      simp at hw
      obtain ⟨rfl, rfl⟩ := hw
      obtain ⟨hg2, hm2, _⟩ := ihid m (none :: anc) .otherPos true hm rfl hwf id2 m2 hww
      exact ⟨by simp [goodN, hg2], hm2, fun _ => rfl⟩
  · intro id i ihid ihi m anc pp pat hm hpp hwf n1 m1 hw
    simp only [WFsh, Bool.and_eq_true] at hwf
    simp [walkN] at hw
    cases hww : walkN m (none :: anc) .otherPos true id with
    | error e => rw [hww] at hw; simp at hw
    | ok pr =>
      obtain ⟨id2, m2⟩ := pr
      rw [hww] at hw
      simp only [] at hw
      cases hwi : walkN m2 (none :: anc) .otherPos false i with
      | error e => rw [hwi] at hw; simp at hw
      | ok pr2 =>
        obtain ⟨i2, m3⟩ := pr2
        rw [hwi] at hw
        simp at hw
        obtain ⟨rfl, rfl⟩ := hw
        obtain ⟨hg2, hm2, _⟩ := ihid m (none :: anc) .otherPos true hm rfl hwf.1 id2 m2 hww
        obtain ⟨hg3, hm3, _⟩ := ihi m2 (none :: anc) .otherPos false hm2 rfl hwf.2 i2 m3 hwi
        exact ⟨by simp [goodN, hg2, hg3], hm3, fun _ => rfl⟩
  · intro op l r ihl ihr m anc pp pat hm hpp hwf n1 m1 hw
    simp only [WFsh, Bool.and_eq_true] at hwf
    simp [walkN] at hw
    cases hwl : walkN m (none :: anc) .otherPos true l with
    | error e => rw [hwl] at hw; simp at hw
    | ok pr =>
      obtain ⟨l2, m2⟩ := pr
      rw [hwl] at hw
      simp only [] at hw
      cases hwr : walkN m2 (none :: anc) .otherPos false r with
      | error e => rw [hwr] at hw; simp at hw
      | ok pr2 =>
        obtain ⟨r2, m3⟩ := pr2
        rw [hwr] at hw
        simp at hw
        obtain ⟨rfl, rfl⟩ := hw
        obtain ⟨hg2, hm2, _⟩ := ihl m (none :: anc) .otherPos true hm rfl hwf.1 l2 m2 hwl
        obtain ⟨hg3, hm3, _⟩ := ihr m2 (none :: anc) .otherPos false hm2 rfl hwf.2 r2 m3 hwr
        refine ⟨?_, hm3, fun _ => rfl⟩
        simp only [goodN, Bool.and_eq_true]
        exact ⟨goodN_avs_true hg2, goodN_avs_false hm3 hg3⟩
  · intro c a ihc iha m anc pp pat hm hpp hwf n1 m1 hw
    simp only [WFsh, Bool.and_eq_true] at hwf
    obtain ⟨hwfc, hwfa⟩ := hwf
    simp [walkN] at hw
    cases hwc : walkN m (getName c :: anc) .otherPos false c with
    | error e => rw [hwc] at hw; simp at hw
    | ok pr =>
      obtain ⟨c1, m2⟩ := pr
      rw [hwc] at hw
      simp only [] at hw
      cases hwa : walkL m2 (getName c1 :: anc) .otherPos false a with
      | error e => rw [hwa] at hw; simp at hw
      | ok pr2 =>
        obtain ⟨a1, m3⟩ := pr2
        rw [hwa] at hw
        simp at hw
        obtain ⟨rfl, rfl⟩ := hw
        obtain ⟨hgc1, hm2', hgn⟩ := ihc m (getName c :: anc) .otherPos false hm
          rfl hwfc c1 m2 hwc
        obtain ⟨hga1, hm3'⟩ := iha m2 (getName c1 :: anc) .otherPos false hm2'
          rfl hwfa a1 m3 hwa
        refine ⟨?_, hm3', fun _ => rfl⟩
        simp only [goodN, Bool.and_eq_true]
        refine ⟨⟨hgc1, ?_⟩, hga1⟩
        cases hc0 : getName c with
        | none => simp [hgn hc0]
        | some s0 =>
          have hc : c = .Identifier s0 := getName_eq_some hc0
          subst hc
          simp [walkN, getName] at hwc
          obtain ⟨hcc, _⟩ := hwc
          rw [← hcc, getName]
          have hF2 : identVisitor m (some s0 :: anc) ParentPos.otherPos s0
              ∉ globals.functions := by
            simpa using (@identVisitor_callee m anc s0 hm).1
          simp [hF2]
  · intro o p comp iho ihp m anc pp pat hm hpp hwf n1 m1 hw
    simp only [WFsh, Bool.and_eq_true] at hwf
    cases comp with
    | false =>
      simp [walkN] at hw
      cases hwo : walkN m (none :: anc) .otherPos false o with
      | error e => rw [hwo] at hw; simp at hw
      | ok pr =>
        obtain ⟨o1, m2⟩ := pr
        rw [hwo] at hw
        simp at hw
        obtain ⟨rfl, rfl⟩ := hw
        obtain ⟨hg2, hm2, _⟩ := iho m (none :: anc) .otherPos false hm rfl hwf.1 o1 m2 hwo
        exact ⟨by simp [goodN, hg2], hm2, fun _ => rfl⟩
    | true =>
      simp [walkN] at hw
      cases hwo : walkN m (none :: anc) .otherPos false o with
      | error e => rw [hwo] at hw; simp at hw
      | ok pr =>
        obtain ⟨o1, m2⟩ := pr
        rw [hwo] at hw
        simp only [] at hw
        cases hwp : walkN m2 (none :: anc) (.memberProperty true) false p with
        | error e => rw [hwp] at hw; simp at hw
        | ok pr2 =>
          obtain ⟨p1, m3⟩ := pr2
          rw [hwp] at hw
          simp at hw
          obtain ⟨rfl, rfl⟩ := hw
          obtain ⟨hg2, hm2, _⟩ := iho m (none :: anc) .otherPos false hm rfl hwf.1 o1 m2 hwo
          obtain ⟨hg3, hm3, _⟩ := ihp m2 (none :: anc) (.memberProperty true) false hm2 rfl hwf.2 p1 m3 hwp
          exact ⟨by simp [goodN, hg2, hg3], hm3, fun _ => rfl⟩
  · intro ps ih m anc pp pat hm hpp hwf n1 m1 hw
    simp only [WFsh] at hwf
    simp [walkN] at hw
    cases hww : walkL m (none :: anc) .otherPos false ps with
    | error e => rw [hww] at hw; simp at hw
    | ok pr =>
      obtain ⟨ps1, m2⟩ := pr
      rw [hww] at hw
      simp at hw
      obtain ⟨rfl, rfl⟩ := hw
      obtain ⟨hg2, hm2⟩ := ih m (none :: anc) .otherPos false hm rfl hwf ps1 m2 hww
      exact ⟨by simp [goodN, hg2], hm2, fun _ => rfl⟩
  · intro k v sh comp ihk ihv m anc pp pat hm hpp hwf n1 m1 hw
    simp only [WFsh, Bool.and_eq_true] at hwf
    obtain ⟨⟨hshwf, hwfk⟩, hwfv⟩ := hwf
    cases comp with
    | false =>
      simp [walkN] at hw
      cases hwv : walkN m (none :: anc) .propertyValue false v with
      | error e => rw [hwv] at hw; simp at hw
      | ok pr =>
        obtain ⟨v1, m2⟩ := pr
        rw [hwv] at hw
        simp at hw
        obtain ⟨rfl, rfl⟩ := hw
        obtain ⟨hgv1, hm2, _⟩ := ihv m (none :: anc) .propertyValue false hm
          rfl hwfv v1 m2 hwv
        refine ⟨goodN_propVisitor hm2 (by simp) hgv1 ?_, hm2,
          fun _ => getName_propVisitor m2 k v1 sh false⟩
        intro kk vv hs hkk hvv hh
        obtain ⟨t, hk0, hv0⟩ := wfsh_sh_inv hs hshwf
        rw [hkk] at hk0
        have htk : kk = t := by simpa using hk0
        subst htk
        rw [hv0] at hwv
        simp [walkN] at hwv
        obtain ⟨hvv1, hm2e⟩ := hwv
        cases hu : startsWithUnderscore kk with
        | false => simp
        | true =>
          have hh0 : vmHas m kk = false := by rw [hm2e]; exact hh
          have hid : identVisitor m (none :: anc) .propertyValue kk = kk :=
            identVisitor_underscore_nohit hu hh0
          have hveq : identVisitor m (none :: anc) .propertyValue kk = vv := by
            rw [← hvv1] at hvv
            simpa using hvv
          rw [hid] at hveq
          simp [← hveq]
    | true =>
      simp [walkN] at hw
      cases hwk : walkN m (none :: anc) (.propertyKey true) false k with
      | error e => rw [hwk] at hw; simp at hw
      | ok pr =>
        obtain ⟨k1, m2⟩ := pr
        rw [hwk] at hw
        simp only [] at hw
        cases hwv : walkN m2 (none :: anc) .propertyValue false v with
        | error e => rw [hwv] at hw; simp at hw
        | ok pr2 =>
          obtain ⟨v1, m3⟩ := pr2
          rw [hwv] at hw
          simp at hw
          obtain ⟨rfl, rfl⟩ := hw
          obtain ⟨hgk1, hm2, _⟩ := ihk m (none :: anc) (.propertyKey true) false
            hm rfl hwfk k1 m2 hwk
          obtain ⟨hgv1, hm3, _⟩ := ihv m2 (none :: anc) .propertyValue false
            hm2 rfl hwfv v1 m3 hwv
          refine ⟨goodN_propVisitor hm3 (by simp [hgk1]) hgv1 ?_, hm3,
            fun _ => getName_propVisitor m3 k1 v1 sh true⟩
          intro kk vv hs hkk hvv hh
          obtain ⟨t, hk0, hv0⟩ := wfsh_sh_inv hs hshwf
          rw [hk0] at hwk
          rw [hv0] at hwv
          simp [walkN] at hwk hwv
          obtain ⟨hk1e, hm2e⟩ := hwk
          obtain ⟨hv1e, hm3e⟩ := hwv
          have hkk2 : identVisitor m (none :: anc) (.propertyKey true) t = kk := by
            rw [← hk1e] at hkk
            simpa using hkk
          have hvv2 : identVisitor m2 (none :: anc) .propertyValue t = vv := by
            rw [← hv1e] at hvv
            simpa using hvv
          rw [← hm2e] at hvv2
          rw [@identVisitor_pp m (none :: anc) (ParentPos.propertyKey true) ParentPos.propertyValue rfl t] at hkk2
          rw [hvv2] at hkk2
          simp [hkk2]
  · intro ps b a g ihps ihb m anc pp pat hm hpp hwf n1 m1 hw
    simp only [WFsh, Bool.and_eq_true] at hwf
    simp [walkN] at hw
    cases hwps : walkL m (none :: anc) .otherPos true ps with
    | error e => rw [hwps] at hw; simp at hw
    | ok pr =>
      obtain ⟨ps1, m2⟩ := pr
      rw [hwps] at hw
      simp only [] at hw
      cases hwb : walkN m2 (none :: anc) .otherPos false b with
      | error e => rw [hwb] at hw; simp at hw
      | ok pr2 =>
        obtain ⟨b1, m3⟩ := pr2
        rw [hwb] at hw
        simp at hw
        obtain ⟨rfl, rfl⟩ := hw
        obtain ⟨hg2, hm2⟩ := ihps m (none :: anc) .otherPos true hm rfl hwf.1 ps1 m2 hwps
        obtain ⟨hg3, hm3, _⟩ := ihb m2 (none :: anc) .otherPos false hm2 rfl hwf.2 b1 m3 hwb
        exact ⟨by simp [fdVisitor, goodN, hg2, hg3], hm3,
          fun _ => getName_fdVisitor m3 none ps1 b1 a g⟩
  · intro i ps b a g ihi ihps ihb m anc pp pat hm hpp hwf n1 m1 hw
    simp only [WFsh, Bool.and_eq_true] at hwf
    obtain ⟨⟨hwfi, hwfps⟩, hwfb⟩ := hwf
    simp [walkN] at hw
    cases hwi : walkN m (none :: anc) .otherPos true i with
    | error e => rw [hwi] at hw; simp at hw
    | ok pr =>
      obtain ⟨i1, m2⟩ := pr
      rw [hwi] at hw
      simp only [] at hw
      cases hwps : walkL m2 (none :: anc) .otherPos true ps with
      | error e => rw [hwps] at hw; simp at hw
      | ok pr2 =>
        obtain ⟨ps1, m3⟩ := pr2
        rw [hwps] at hw
        simp only [] at hw
        cases hwb : walkN m3 (none :: anc) .otherPos false b with
        | error e => rw [hwb] at hw; simp at hw
        | ok pr3 =>
          obtain ⟨b1, m4⟩ := pr3
          rw [hwb] at hw
          simp at hw
          obtain ⟨rfl, rfl⟩ := hw
          obtain ⟨hg2, hm2, _⟩ := ihi m (none :: anc) .otherPos true hm rfl hwfi i1 m2 hwi
          obtain ⟨hg3, hm3⟩ := ihps m2 (none :: anc) .otherPos true hm2 rfl hwfps ps1 m3 hwps
          obtain ⟨hg4, hm4, _⟩ := ihb m3 (none :: anc) .otherPos false hm3 rfl hwfb b1 m4 hwb
          exact ⟨goodN_fdVisitor_some hm4 hg2 hg3 hg4, hm4,
            fun _ => getName_fdVisitor m4 (some i1) ps1 b1 a g⟩
  · intro ps b a g ihps ihb m anc pp pat hm hpp hwf n1 m1 hw
    simp only [WFsh, Bool.and_eq_true] at hwf
    simp [walkN] at hw
    cases hwps : walkL m (none :: anc) .otherPos true ps with
    | error e => rw [hwps] at hw; simp at hw
    | ok pr =>
      obtain ⟨ps1, m2⟩ := pr
      rw [hwps] at hw
      simp only [] at hw
      cases hwb : walkN m2 (none :: anc) .otherPos false b with
      | error e => rw [hwb] at hw; simp at hw
      | ok pr2 =>
        obtain ⟨b1, m3⟩ := pr2
        rw [hwb] at hw
        simp at hw
        obtain ⟨rfl, rfl⟩ := hw
        obtain ⟨hg2, hm2⟩ := ihps m (none :: anc) .otherPos true hm rfl hwf.1 ps1 m2 hwps
        obtain ⟨hg3, hm3, _⟩ := ihb m2 (none :: anc) .otherPos false hm2 rfl hwf.2 b1 m3 hwb
        exact ⟨by simp [goodN, hg2, hg3], hm3, fun _ => rfl⟩
  · intro i ps b a g ihi ihps ihb m anc pp pat hm hpp hwf n1 m1 hw
    simp only [WFsh, Bool.and_eq_true] at hwf
    obtain ⟨⟨hwfi, hwfps⟩, hwfb⟩ := hwf
    simp [walkN] at hw
    cases hwi : walkN m (none :: anc) .otherPos true i with
    | error e => rw [hwi] at hw; simp at hw
    | ok pr =>
      obtain ⟨i1, m2⟩ := pr
      rw [hwi] at hw
      simp only [] at hw
      cases hwps : walkL m2 (none :: anc) .otherPos true ps with
      | error e => rw [hwps] at hw; simp at hw
      | ok pr2 =>
        obtain ⟨ps1, m3⟩ := pr2
        rw [hwps] at hw
        simp only [] at hw
        cases hwb : walkN m3 (none :: anc) .otherPos false b with
        | error e => rw [hwb] at hw; simp at hw
        | ok pr3 =>
          obtain ⟨b1, m4⟩ := pr3
          rw [hwb] at hw
          simp at hw
          obtain ⟨rfl, rfl⟩ := hw
          obtain ⟨hg2, hm2, _⟩ := ihi m (none :: anc) .otherPos true hm rfl hwfi i1 m2 hwi
          obtain ⟨hg3, hm3⟩ := ihps m2 (none :: anc) .otherPos true hm2 rfl hwfps ps1 m3 hwps
          obtain ⟨hg4, hm4, _⟩ := ihb m3 (none :: anc) .otherPos false hm3 rfl hwfb b1 m4 hwb
          exact ⟨by simp [goodN, hg2, hg3, hg4], hm4, fun _ => rfl⟩
  · intro ps b a e ihps ihb m anc pp pat hm hpp hwf n1 m1 hw
    simp only [WFsh, Bool.and_eq_true] at hwf
    simp [walkN] at hw
    cases hwps : walkL m (none :: anc) .otherPos true ps with
    | error er => rw [hwps] at hw; simp at hw
    | ok pr =>
      obtain ⟨ps1, m2⟩ := pr
      rw [hwps] at hw
      simp only [] at hw
      cases hwb : walkN m2 (none :: anc) .otherPos false b with
      | error er => rw [hwb] at hw; simp at hw
      | ok pr2 =>
        obtain ⟨b1, m3⟩ := pr2
        rw [hwb] at hw
        simp at hw
        obtain ⟨rfl, rfl⟩ := hw
        obtain ⟨hg2, hm2⟩ := ihps m (none :: anc) .otherPos true hm rfl hwf.1 ps1 m2 hwps
        obtain ⟨hg3, hm3, _⟩ := ihb m2 (none :: anc) .otherPos false hm2 rfl hwf.2 b1 m3 hwb
        exact ⟨by simp [goodN, hg2, hg3], hm3, fun _ => rfl⟩
  · intro m anc pp pat hm hpp hwf l1 m1 hw
    simp [walkL] at hw
    obtain ⟨rfl, rfl⟩ := hw
    exact ⟨rfl, hm⟩
  · intro x xs ihx ihxs m anc pp pat hm hpp hwf l1 m1 hw
    simp only [WFshL, Bool.and_eq_true] at hwf
    simp [walkL] at hw
    cases hwx : walkN m anc pp pat x with
    | error e => rw [hwx] at hw; simp at hw
    | ok pr =>
      obtain ⟨x1, m2⟩ := pr
      rw [hwx] at hw
      simp only [] at hw
      cases hwxs : walkL m2 anc pp pat xs with
      | error e => rw [hwxs] at hw; simp at hw
      | ok pr2 =>
        obtain ⟨xs1, m3⟩ := pr2
        rw [hwxs] at hw
        simp at hw
        obtain ⟨rfl, rfl⟩ := hw
        obtain ⟨hg2, hm2, _⟩ := ihx m anc pp pat hm hpp hwf.1 x1 m2 hwx
        obtain ⟨hg3, hm3⟩ := ihxs m2 anc pp pat hm2 hpp hwf.2 xs1 m3 hwxs
        exact ⟨by simp [goodNL, hg2, hg3], hm3⟩

/-- C4: For all source programs with top-level declarations (any
shorthand-well-formed parse tree, as acorn produces), transpiling the
transpiler's output a second time yields no further renaming of
already-renamed identifiers and no double-rewriting of already-rewritten
global calls: the second run succeeds and returns the same tree up to
shorthand flags (`eraseSh` erases only the Property `shorthand` flag, which
the visitor may still expand to the equivalent keyed form; every identifier,
binding and call is unchanged). -/
theorem c4_semantic_idempotence (p q : Node) (hwf : WFsh p = true)
    (h1 : transpileAst p = some q) :
    ∃ q2, transpileAst q = some q2 ∧ eraseSh q2 = eraseSh q := by
  have h2 : (match walkProgram p with
    | .error _ => none
    | .ok (n, _) => some n) = some q := h1
  cases hwp : walkProgram p with
  | error e => rw [hwp] at h2; simp at h2
  | ok pr =>
    obtain ⟨q0, mf⟩ := pr
    rw [hwp] at h2
    simp at h2
    subst h2
    have hgood : goodN false q0 = true :=
      (walkPass1.1 p [] [] .otherPos false vmap1_nil rfl hwf q0 mf hwp).1
    obtain ⟨q2, m2, hw2, he2, _⟩ :=
      walkPass2.1 q0 [] [] .otherPos false uidmap_nil ancok_nil hgood
    refine ⟨q2, ?_, he2⟩
    show (match walkProgram q0 with
      | .error _ => none
      | .ok (n, _) => some n) = some q2
    have h3 : walkProgram q0 = .ok (q2, m2) := hw2
    rw [h3]

/-- Witness for C4 at the program `let y = 1; ({ y });`: its transpile
renames `y` to `_y` and expands the shorthand, and re-transpiling that
output reproduces it up to shorthand flags. -/
theorem c4_semantic_idempotence_witness :
    ∃ q2, transpileAst (.Program
      [.VariableDeclaration ("let".toList)
        [.VariableDeclarator (.Identifier ("_y".toList)) (some (.Lit ("1".toList)))],
       .ExpressionStatement (.ObjectExpression
        [.Property (.Identifier ("y".toList)) (.Identifier ("_y".toList)) false false])])
      = some q2 ∧
    eraseSh q2 = eraseSh (.Program
      [.VariableDeclaration ("let".toList)
        [.VariableDeclarator (.Identifier ("_y".toList)) (some (.Lit ("1".toList)))],
       .ExpressionStatement (.ObjectExpression
        [.Property (.Identifier ("y".toList)) (.Identifier ("_y".toList)) false false])]) :=
  c4_semantic_idempotence
    (.Program
      [.VariableDeclaration ("let".toList)
        [.VariableDeclarator (.Identifier ("y".toList)) (some (.Lit ("1".toList)))],
       .ExpressionStatement (.ObjectExpression
        [.Property (.Identifier ("y".toList)) (.Identifier ("y".toList)) true false])])
    (.Program
      [.VariableDeclaration ("let".toList)
        [.VariableDeclarator (.Identifier ("_y".toList)) (some (.Lit ("1".toList)))],
       .ExpressionStatement (.ObjectExpression
        [.Property (.Identifier ("y".toList)) (.Identifier ("_y".toList)) false false])])
    (by rfl) (by rfl)
